import Mathlib

/-!
Verification of the instruction-dashboard core (`src/app.py`).

The development shallowly embeds the core of the program:

* the record data model (`Instruction`, `HistoryEntry`, `FileVersionEntry`)
  exactly mirroring the dictionaries built by `add_instruction` /
  `edit_instruction`;
* a flat uploads directory modelled as an association list from path to
  byte content (`FS`), with write / remove / lookup mirroring
  `open(..., 'wb').write`, `os.remove`, `os.path.exists` and
  `shutil.copy2`;
* the three lifecycle operations: `add_instruction` (the submitted branch,
  app.py lines 251-288), `edit_instruction_update` (the update branch,
  lines 364-442) and `delete_instruction` (the confirmed delete branch,
  lines 444-459);
* the staleness predicate `is_outdated` (lines 68-78) together with a
  faithful model of `datetime.strptime(s, "%Y-%m-%d")`;
* the persistence layer `load_data` / `save_data` (lines 17-30) over a
  model of Python's `json` module (parser and `indent=2`,
  `ensure_ascii=False` serializer).

Timestamps taken by `datetime.now().strftime(...)` are passed in as
explicit `now` arguments; `uuid.uuid4()` is passed in as an explicit
`freshId` argument.  Storage failures (which in Python surface as
exceptions from `shutil.copy2` / `os.remove` / `open`) are modelled by a
`Faults` record selecting which primitive raises.
-/

/-! ## Bytes and the uploads directory -/

/-- Content of an uploaded file, as a byte sequence. -/
abbrev Bytes := List Nat

/-- A value returned by `st.file_uploader`: a client-side file name and the
bytes returned by `uploaded_file.read()`. -/
structure Upload where
  name : String
  content : Bytes
deriving DecidableEq, Repr

/-- The uploads directory: an association list from path to content.
Paths written by the program are unique keys; lookup returns the first
binding. -/
abbrev FS := List (String × Bytes)

/-- Content of the file at path `q`, if present (`open(q,'rb').read()`). -/
def fsLookup : FS → String → Option Bytes
  | [], _ => none
  | (p, b) :: fs, q => if p = q then some b else fsLookup fs q

/-- `os.path.exists q`. -/
def fsExists (fs : FS) (q : String) : Bool :=
  (fsLookup fs q).isSome

/-- `open(p,'wb').write(b)`: create or overwrite the file at `p`. -/
def fsWrite : FS → String → Bytes → FS
  | [], p, b => [(p, b)]
  | (q, c) :: fs, p, b => if q = p then (p, b) :: fs else (q, c) :: fsWrite fs p b

/-- `os.remove p`: drop the binding for `p`. -/
def fsRemove : FS → String → FS
  | [], _ => []
  | (q, c) :: fs, p => if q = p then fs else (q, c) :: fsRemove fs p

/-- `os.path.join(UPLOADS_DIR, f)` with `UPLOADS_DIR = "uploads"`. -/
def uploadsPath (f : String) : String := "uploads/" ++ f

/-! ## The record data model (app.py lines 256-269, 37-42, 419-424) -/

/-- One entry of `instruction['history']` as built by `add_history_entry`. -/
structure HistoryEntry where
  timestamp : String
  change_type : String
  details : String
  user : String
deriving DecidableEq, Repr

/-- One entry of `instruction['file_versions']` as appended at
app.py lines 419-424. -/
structure FileVersionEntry where
  version : Nat
  filename : String
  original_name : String
  timestamp : String
deriving DecidableEq, Repr

/-- An instruction record, with exactly the fields of the dictionary built
at app.py lines 257-269.  `filename` is `Option String` for the Python
`None` / string distinction. -/
structure Instruction where
  id : String
  title : String
  department : String
  registration_date : String
  last_update : String
  responsible : String
  email : String
  has_file : Bool
  filename : Option String
  history : List HistoryEntry
  file_versions : List FileVersionEntry
deriving DecidableEq, Repr

/-- `add_history_entry(instruction, change_type, details)` (app.py lines
32-45), with the caller's current timestamp passed in as `now` and the
default actor `user="Система"`. -/
def add_history_entry (now change_type details : String) (inst : Instruction) :
    Instruction :=
  { inst with history := inst.history ++ [⟨now, change_type, details, "Система"⟩] }

/-- A `st.date_input` value: Python `datetime.date` objects, always
present (the widget always holds a date, hence always truthy). -/
structure PyDate where
  year : Nat
  month : Nat
  day : Nat
deriving DecidableEq, Repr

/-- Zero-pad a numeral to width `w`. -/
def padNum (w n : Nat) : String :=
  let s := toString n
  String.mk (List.replicate (w - s.length) '0') ++ s

/-- `d.strftime("%Y-%m-%d")`. -/
def PyDate.strftimeYMD (d : PyDate) : String :=
  padNum 4 d.year ++ "-" ++ padNum 2 d.month ++ "-" ++ padNum 2 d.day

/-! ## Whole-app state at the operation level

`data` is the in-memory list of records, `fs` the uploads directory and
`stored` the collection held by `data/instructions.json` (modelled at the
collection level; the byte-level serialization is studied separately
below with `load_data` / `save_data`). -/

structure DashState where
  data : List Instruction
  fs : FS
  stored : Option (List Instruction)
deriving DecidableEq, Repr

/-- Outcome of an operation: success, or a surfaced error (`st.error` /
a propagating exception) together with the in-memory state left behind. -/
inductive OpResult (σ : Type) where
  | ok : σ → OpResult σ
  | err : String → σ → OpResult σ
deriving DecidableEq, Repr

/-- State after the operation, whether or not it succeeded. -/
def OpResult.state {σ : Type} : OpResult σ → σ
  | .ok s => s
  | .err _ s => s

/-! ## add_instruction (app.py lines 251-288, submitted branch) -/

/-- The fixed message of `st.error` at app.py line 253. -/
def validationMsgAdd : String := "❌ Заполните все обязательные поля (отмечены *)"

/-- `add_instruction`, from the `if submitted:` branch.  `now` is the
timestamp string, `freshId` the `str(uuid.uuid4())` value.  The Python
validation `all([title, department, registration_date, last_update,
responsible, email])` tests truthiness; the two dates are `datetime.date`
objects and always truthy, so only the four text fields can fail. -/
def add_instruction (now freshId title department : String)
    (registration_date last_update : PyDate)
    (responsible email : String) (uploaded_file : Option Upload)
    (st : DashState) : OpResult DashState :=
  if ¬(title ≠ "" ∧ department ≠ "" ∧ True ∧ True ∧ responsible ≠ "" ∧ email ≠ "") then
    .err validationMsgAdd st
  else
    let newInstruction : Instruction :=
      { id := freshId
        title := title
        department := department
        registration_date := registration_date.strftimeYMD
        last_update := last_update.strftimeYMD
        responsible := responsible
        email := email
        has_file := uploaded_file.isSome
        filename := none
        history := []
        file_versions := [] }
    let newInstruction :=
      add_history_entry now "Создание"
        ("Создана новая инструкция \"" ++ title ++ "\"") newInstruction
    let withFile : Instruction × FS :=
      match uploaded_file with
      | some u =>
        let filename := freshId ++ "_" ++ u.name
        let fs := fsWrite st.fs (uploadsPath filename) u.content
        let inst := { newInstruction with filename := some filename }
        let inst := add_history_entry now "Файл" ("Загружен файл: " ++ u.name) inst
        (inst, fs)
      | none => (newInstruction, st.fs)
    let data := st.data ++ [withFile.1]
    .ok { data := data, fs := withFile.2, stored := some data }

/-! ## edit_instruction (app.py lines 364-442, update branch) -/

/-- Which storage primitive raises during the file-handling block of an
edit: `shutil.copy2` (line 416), `os.remove` (line 427) or the write of
the new file (lines 432-433). -/
structure Faults where
  copyFails : Bool
  removeFails : Bool
  writeFails : Bool
deriving DecidableEq, Repr

/-- The fault-free run, in which every storage primitive succeeds. -/
def noFaults : Faults := ⟨false, false, false⟩

/-- The fixed message of `st.error` at app.py line 366. -/
def validationMsgEdit : String := "❌ Заполните все поля"

/-- A single apostrophe, as used by the f-strings at lines 378-386. -/
def apos : String := String.singleton (Char.ofNat 39)

/-- `s` wrapped in apostrophes. -/
def quoted (s : String) : String := apos ++ s ++ apos

/-- `old.split('_', 1)[-1]`: everything after the first underscore, or the
whole string when no underscore occurs. -/
def splitUnderscoreTailAux : List Char → Option (List Char)
  | [] => none
  | '_' :: r => some r
  | _ :: r => splitUnderscoreTailAux r

/-- `s.split('_', 1)[-1]` (app.py lines 412 and 422). -/
def splitUnderscoreTail (s : String) : String :=
  match splitUnderscoreTailAux s.data with
  | some r => String.mk r
  | none => s

/-- `'; '.join(changes)` — Python `str.join`. -/
def joinSep (sep : String) : List String → String
  | [] => ""
  | [x] => x
  | x :: xs => x ++ sep ++ joinSep sep xs

/-- The `changes` list built at app.py lines 376-388, one description per
changed field, in source order.  The date parameters arrive already
formatted by `strftime("%Y-%m-%d")`. -/
def changesList (inst : Instruction)
    (title department registration_date last_update responsible email : String) :
    List String :=
  (if inst.title ≠ title then
    ["Название: " ++ quoted inst.title ++ " → " ++ quoted title] else []) ++
  (if inst.department ≠ department then
    ["Подразделение: " ++ quoted inst.department ++ " → " ++ quoted department] else []) ++
  (if inst.registration_date ≠ registration_date then
    ["Дата регистрации изменена"] else []) ++
  (if inst.last_update ≠ last_update then
    ["Дата актуализации обновлена"] else []) ++
  (if inst.responsible ≠ responsible then
    ["Ответственный: " ++ quoted inst.responsible ++ " → " ++ quoted responsible] else []) ++
  (if inst.email ≠ email then
    ["Email изменен"] else [])

/-- `instruction.update({...})` at app.py lines 391-398. -/
def applyFieldUpdates (inst : Instruction)
    (title department registration_date last_update responsible email : String) :
    Instruction :=
  { inst with
    title := title
    department := department
    registration_date := registration_date
    last_update := last_update
    responsible := responsible
    email := email }

/-- Lines 400-401: append one batched `Редактирование` entry when at least
one field changed. -/
def applyEditHistory (now : String) (changes : List String) (inst : Instruction) :
    Instruction :=
  if changes ≠ [] then
    add_history_entry now "Редактирование" (joinSep "; " changes) inst
  else inst

/-- Lines 405-427: archive the current file (when one is recorded and the
file exists on disk) as a new version, then delete the old file.  On a
fault the partially mutated record and directory are surfaced. -/
def archiveOldFile (faults : Faults) (now : String) (inst : Instruction) (fs : FS) :
    OpResult (Instruction × FS) :=
  match inst.filename with
  | some old_filename =>
    let old_file_path := uploadsPath old_filename
    if fsExists fs old_file_path then
      let version_num := inst.file_versions.length + 1
      let version_filename :=
        inst.id ++ "_v" ++ toString version_num ++ "_" ++ splitUnderscoreTail old_filename
      if faults.copyFails then .err "StorageError: copy2" (inst, fs)
      else
        let fs' :=
          match fsLookup fs old_file_path with
          | some b => fsWrite fs (uploadsPath version_filename) b
          | none => fs
        let inst' :=
          { inst with
            file_versions := inst.file_versions ++
              [⟨version_num, version_filename, splitUnderscoreTail old_filename, now⟩] }
        if faults.removeFails then .err "StorageError: remove" (inst', fs')
        else .ok (inst', fsRemove fs' old_file_path)
    else .ok (inst, fs)
  | none => .ok (inst, fs)

/-- Lines 429-438: write the new file, make it current, set `has_file`,
and append the `Файл` history entry. -/
def attachNewFile (faults : Faults) (now : String) (u : Upload)
    (inst : Instruction) (fs : FS) : OpResult (Instruction × FS) :=
  let filename := inst.id ++ "_" ++ u.name
  if faults.writeFails then .err "StorageError: write" (inst, fs)
  else
    let fs' := fsWrite fs (uploadsPath filename) u.content
    let inst' := { inst with filename := some filename, has_file := true }
    let inst' := add_history_entry now "Файл"
      ("Загружена новая версия файла: " ++ u.name) inst'
    .ok (inst', fs')

/-- The whole file-handling block, lines 404-438. -/
def handleUpload (faults : Faults) (now : String) (u : Upload)
    (inst : Instruction) (fs : FS) : OpResult (Instruction × FS) :=
  match archiveOldFile faults now inst fs with
  | .err m s => .err m s
  | .ok (inst', fs') => attachNewFile faults now u inst' fs'

/-- The `update_submitted` branch of `edit_instruction` (lines 364-442),
acting on the selected record and the uploads directory.  Persistence is
handled by the collection-level wrapper below. -/
def edit_instruction_update (faults : Faults) (now title department : String)
    (registration_date last_update : PyDate)
    (responsible email : String) (uploaded_file : Option Upload)
    (inst : Instruction) (fs : FS) : OpResult (Instruction × FS) :=
  if ¬(title ≠ "" ∧ department ≠ "" ∧ True ∧ True ∧ responsible ≠ "" ∧ email ≠ "") then
    .err validationMsgEdit (inst, fs)
  else
    let rd := registration_date.strftimeYMD
    let lu := last_update.strftimeYMD
    let changes := changesList inst title department rd lu responsible email
    let inst := applyFieldUpdates inst title department rd lu responsible email
    let inst := applyEditHistory now changes inst
    match uploaded_file with
    | none => .ok (inst, fs)
    | some u => handleUpload faults now u inst fs

/-- Replace the record carrying id `i` (the object mutated in place by
Python's `instruction.update` / `next(item for item in data ...)`). -/
def replaceById (data : List Instruction) (i : String) (r : Instruction) :
    List Instruction :=
  match data with
  | [] => []
  | x :: xs => if x.id = i then r :: xs else x :: replaceById xs i r

/-- Collection-level edit: find the selected record, run the update
branch, write the collection back on success (`save_data(data)` at line
440 runs only when no exception interrupted the block). -/
def edit_instruction (faults : Faults) (now : String) (selectedId : String)
    (title department : String) (registration_date last_update : PyDate)
    (responsible email : String) (uploaded_file : Option Upload)
    (st : DashState) : OpResult DashState :=
  match st.data.find? (fun r => r.id = selectedId) with
  | none => .err "StopIteration" st
  | some inst =>
    match edit_instruction_update faults now title department registration_date
        last_update responsible email uploaded_file inst st.fs with
    | .ok (inst', fs') =>
      let data' := replaceById st.data selectedId inst'
      .ok { data := data', fs := fs', stored := some data' }
    | .err m (inst', fs') =>
      .err m { data := replaceById st.data selectedId inst', fs := fs', stored := st.stored }

/-! ## delete (app.py lines 444-459, confirmed branch) -/

/-- `data.remove(instruction)`: drop the first element equal to it. -/
def removeFirst : List Instruction → Instruction → List Instruction
  | [], _ => []
  | x :: xs, r => if x = r then xs else x :: removeFirst xs r

/-- The confirmed delete branch: remove the current file from disk (when
recorded and present), remove the record from the collection, persist. -/
def delete_instruction (inst : Instruction) (st : DashState) : DashState :=
  let fs :=
    match inst.filename with
    | some f => if fsExists st.fs (uploadsPath f) then fsRemove st.fs (uploadsPath f) else st.fs
    | none => st.fs
  let data := removeFirst st.data inst
  { data := data, fs := fs, stored := some data }

/-! ## Basic lemmas about the uploads directory -/

theorem fsLookup_fsWrite_self (fs : FS) (p : String) (b : Bytes) :
    fsLookup (fsWrite fs p b) p = some b := by
  induction fs with
  | nil => simp [fsWrite, fsLookup]
  | cons hd tl ih =>
    obtain ⟨q, c⟩ := hd
    by_cases h : q = p <;> simp [fsWrite, fsLookup, h, ih]

theorem fsLookup_fsWrite_ne (fs : FS) (p q : String) (b : Bytes) (h : q ≠ p) :
    fsLookup (fsWrite fs p b) q = fsLookup fs q := by
  induction fs with
  | nil => simp [fsWrite, fsLookup, Ne.symm h]
  | cons hd tl ih =>
    obtain ⟨r, c⟩ := hd
    simp only [fsWrite]
    by_cases hr : r = p
    · subst hr
      simp [fsLookup, Ne.symm h]
    · simp only [if_neg hr, fsLookup]
      by_cases hq : r = q
      · simp [hq]
      · simp [hq, ih]

theorem fsLookup_fsRemove_ne (fs : FS) (p q : String) (h : q ≠ p) :
    fsLookup (fsRemove fs p) q = fsLookup fs q := by
  induction fs with
  | nil => simp [fsRemove]
  | cons hd tl ih =>
    obtain ⟨r, c⟩ := hd
    simp only [fsRemove]
    by_cases hr : r = p
    · subst hr
      simp [fsLookup, Ne.symm h]
    · simp only [if_neg hr, fsLookup]
      by_cases hq : r = q
      · simp [hq]
      · simp [hq, ih]

theorem uploadsPath_injective {a b : String} (h : uploadsPath a = uploadsPath b) :
    a = b := by
  have hd : ("uploads/" ++ a).data = ("uploads/" ++ b).data := by
    simpa [uploadsPath] using congrArg String.data h
  simp only [String.data_append] at hd
  exact String.ext (List.append_cancel_left hd)

/-! ## The has_file / filename invariant (claim C1) -/

/-- The derived-field invariant of the spec: `hasFile` is set exactly when
a current file reference exists. -/
def hasFileInv (r : Instruction) : Prop :=
  r.has_file = r.filename.isSome

theorem hasFileInv_add_history_entry (n c d : String) (i : Instruction) :
    hasFileInv (add_history_entry n c d i) ↔ hasFileInv i := by
  simp [add_history_entry, hasFileInv]

theorem hasFileInv_applyFieldUpdates (i : Instruction) (a b c d e f : String) :
    hasFileInv (applyFieldUpdates i a b c d e f) ↔ hasFileInv i := by
  simp [applyFieldUpdates, hasFileInv]

theorem hasFileInv_applyEditHistory (now : String) (cs : List String) (i : Instruction) :
    hasFileInv (applyEditHistory now cs i) ↔ hasFileInv i := by
  unfold applyEditHistory
  split
  · exact hasFileInv_add_history_entry _ _ _ _
  · exact Iff.rfl

theorem archiveOldFile_hasFileInv (faults : Faults) (now : String)
    (inst : Instruction) (fs : FS) (h : hasFileInv inst) :
    hasFileInv (archiveOldFile faults now inst fs).state.1 := by
  unfold archiveOldFile
  cases hf : inst.filename with
  | none => simpa [OpResult.state] using h
  | some old =>
    by_cases he : fsExists fs (uploadsPath old)
    · by_cases hc : faults.copyFails
      · simpa [he, hc, OpResult.state] using h
      · by_cases hr : faults.removeFails <;>
          simpa [he, hc, hr, OpResult.state, hasFileInv, hf] using h
    · simpa [he, OpResult.state] using h

theorem attachNewFile_hasFileInv (faults : Faults) (now : String) (u : Upload)
    (inst : Instruction) (fs : FS) (h : hasFileInv inst) :
    hasFileInv (attachNewFile faults now u inst fs).state.1 := by
  unfold attachNewFile
  by_cases hw : faults.writeFails
  · simpa [hw, OpResult.state] using h
  · simp [hw, OpResult.state, add_history_entry, hasFileInv]

theorem editUpdate_hasFileInv (faults : Faults) (now title department : String)
    (rd lu : PyDate) (responsible email : String) (uploaded_file : Option Upload)
    (inst : Instruction) (fs : FS) (h : hasFileInv inst) :
    hasFileInv (edit_instruction_update faults now title department rd lu
      responsible email uploaded_file inst fs).state.1 := by
  unfold edit_instruction_update
  split
  · simpa [OpResult.state] using h
  · have h2 : hasFileInv (applyEditHistory now
        (changesList inst title department rd.strftimeYMD lu.strftimeYMD responsible email)
        (applyFieldUpdates inst title department rd.strftimeYMD lu.strftimeYMD
          responsible email)) := by
      rw [hasFileInv_applyEditHistory, hasFileInv_applyFieldUpdates]
      exact h
    cases uploaded_file with
    | none => simpa [OpResult.state] using h2
    | some u =>
      simp only [handleUpload]
      cases ha : archiveOldFile faults now
          (applyEditHistory now _ (applyFieldUpdates inst title department _ _ _ _)) fs with
      | err m s =>
        have := archiveOldFile_hasFileInv faults now
          (applyEditHistory now _ (applyFieldUpdates inst title department _ _ _ _)) fs h2
        rw [ha] at this
        simpa [OpResult.state] using this
      | ok s =>
        have := archiveOldFile_hasFileInv faults now
          (applyEditHistory now _ (applyFieldUpdates inst title department _ _ _ _)) fs h2
        rw [ha] at this
        simp only [OpResult.state] at this ⊢
        exact attachNewFile_hasFileInv faults now u s.1 s.2 this

theorem mem_replaceById {data : List Instruction} {i : String} {r x : Instruction}
    (h : x ∈ replaceById data i r) : x ∈ data ∨ x = r := by
  induction data with
  | nil => simp [replaceById] at h
  | cons hd tl ih =>
    simp only [replaceById] at h
    by_cases hid : hd.id = i
    · rw [if_pos hid] at h
      rcases List.mem_cons.mp h with h1 | h1
      · exact Or.inr h1
      · exact Or.inl (List.mem_cons_of_mem _ h1)
    · rw [if_neg hid] at h
      rcases List.mem_cons.mp h with h1 | h1
      · exact Or.inl (h1 ▸ List.mem_cons_self _ _)
      · rcases ih h1 with h2 | h2
        · exact Or.inl (List.mem_cons_of_mem _ h2)
        · exact Or.inr h2

theorem mem_removeFirst {data : List Instruction} {r x : Instruction}
    (h : x ∈ removeFirst data r) : x ∈ data := by
  induction data with
  | nil => simp [removeFirst] at h
  | cons hd tl ih =>
    simp only [removeFirst] at h
    by_cases he : hd = r
    · rw [if_pos he] at h
      exact List.mem_cons_of_mem _ h
    · rw [if_neg he] at h
      rcases List.mem_cons.mp h with h1 | h1
      · exact h1 ▸ List.mem_cons_self _ _
      · exact List.mem_cons_of_mem _ (ih h1)

/-- C1: for every record, after every core operation — creation via
`add_instruction` (with or without a file), edit via `edit_instruction`
(with or without a new file, including file replacement, and including
runs interrupted by a storage fault), and delete — `has_file` is true
exactly when the record's current `filename` reference is non-null. -/
theorem c1_hasFile_iff_filename
    (now freshId title department : String) (rd lu : PyDate)
    (responsible email : String) (upload : Option Upload)
    (faults : Faults) (selectedId : String) (inst : Instruction)
    (st : DashState) (h : ∀ r ∈ st.data, hasFileInv r) :
    (∀ r ∈ (add_instruction now freshId title department rd lu responsible email
        upload st).state.data, hasFileInv r) ∧
    (∀ r ∈ (edit_instruction faults now selectedId title department rd lu
        responsible email upload st).state.data, hasFileInv r) ∧
    (∀ r ∈ (delete_instruction inst st).data, hasFileInv r) := by
  refine ⟨?_, ?_, ?_⟩
  · unfold add_instruction
    split
    · simpa [OpResult.state] using h
    · intro r hr
      simp only [OpResult.state, List.mem_append, List.mem_singleton] at hr
      rcases hr with hr | hr
      · exact h r hr
      · subst hr
        cases upload with
        | none => simp [hasFileInv, add_history_entry]
        | some u => simp [hasFileInv, add_history_entry]
  · unfold edit_instruction
    cases hfind : st.data.find? (fun r => r.id = selectedId) with
    | none => simpa [OpResult.state] using h
    | some inst0 =>
      have hmem : inst0 ∈ st.data := List.mem_of_find?_eq_some hfind
      have hinv0 : hasFileInv inst0 := h inst0 hmem
      have hres := editUpdate_hasFileInv faults now title department rd lu
        responsible email upload inst0 st.fs hinv0
      cases hup : edit_instruction_update faults now title department rd lu
          responsible email upload inst0 st.fs with
      | ok s =>
        obtain ⟨i2, f2⟩ := s
        rw [hup] at hres
        simp only [OpResult.state] at hres
        simp only [hup, OpResult.state]
        intro r hr
        rcases mem_replaceById hr with h1 | h1
        · exact h r h1
        · exact h1 ▸ hres
      | err m s =>
        obtain ⟨i2, f2⟩ := s
        rw [hup] at hres
        simp only [OpResult.state] at hres
        simp only [hup, OpResult.state]
        intro r hr
        rcases mem_replaceById hr with h1 | h1
        · exact h r h1
        · exact h1 ▸ hres
  · intro r hr
    exact h r (mem_removeFirst hr)

/-- Witness for C1 at a concrete state and concrete arguments. -/
theorem c1_hasFile_iff_filename_witness :
    (∀ r ∈ (⟨[⟨"i", "T", "D", "2024-01-01", "2024-01-01", "R", "E", true,
        some "i_a", [], []⟩], [("uploads/i_a", [1])], none⟩ : DashState).data,
      hasFileInv r) ∧
    ((∀ r ∈ (add_instruction "t" "j" "T2" "D2" ⟨2024, 1, 2⟩ ⟨2024, 1, 2⟩ "R2" "E2"
        (some ⟨"b", [2]⟩)
        (⟨[⟨"i", "T", "D", "2024-01-01", "2024-01-01", "R", "E", true,
          some "i_a", [], []⟩], [("uploads/i_a", [1])], none⟩ : DashState)).state.data,
        hasFileInv r) ∧
      (∀ r ∈ (edit_instruction noFaults "t" "i" "T2" "D2" ⟨2024, 1, 2⟩ ⟨2024, 1, 2⟩
          "R2" "E2" (some ⟨"b", [2]⟩)
          (⟨[⟨"i", "T", "D", "2024-01-01", "2024-01-01", "R", "E", true,
            some "i_a", [], []⟩], [("uploads/i_a", [1])], none⟩ : DashState)).state.data,
        hasFileInv r) ∧
      (∀ r ∈ (delete_instruction
          ⟨"i", "T", "D", "2024-01-01", "2024-01-01", "R", "E", true, some "i_a", [], []⟩
          (⟨[⟨"i", "T", "D", "2024-01-01", "2024-01-01", "R", "E", true,
            some "i_a", [], []⟩], [("uploads/i_a", [1])], none⟩ : DashState)).data,
        hasFileInv r)) := by
  constructor
  · intro r hr
    simp only [List.mem_singleton] at hr
    subst hr
    rfl
  · refine c1_hasFile_iff_filename "t" "j" "T2" "D2" ⟨2024, 1, 2⟩ ⟨2024, 1, 2⟩ "R2" "E2"
      (some ⟨"b", [2]⟩) noFaults "i"
      ⟨"i", "T", "D", "2024-01-01", "2024-01-01", "R", "E", true, some "i_a", [], []⟩
      _ ?_
    intro r hr
    simp only [List.mem_singleton] at hr
    subst hr
    rfl

/-! ## Exact shape of a fault-free file replacement -/

/-- Fault-free file replacement when a current file is recorded and
present on disk: the old artifact is copied to the versioned path, one
`FileVersionEntry` (number `count+1`) is appended, the old file is
removed, the new file is written, the record points at it, and one
`Файл` history entry is appended — in that order. -/
theorem handleUpload_noFaults_replace
    (now : String) (u : Upload) (inst : Instruction) (fs : FS)
    {old : String} {b : Bytes}
    (hf : inst.filename = some old)
    (hb : fsLookup fs (uploadsPath old) = some b) :
    handleUpload noFaults now u inst fs =
      .ok
        (⟨inst.id, inst.title, inst.department, inst.registration_date,
          inst.last_update, inst.responsible, inst.email, true,
          some (inst.id ++ "_" ++ u.name),
          inst.history ++
            [⟨now, "Файл", "Загружена новая версия файла: " ++ u.name, "Система"⟩],
          inst.file_versions ++
            [⟨inst.file_versions.length + 1,
              inst.id ++ "_v" ++ toString (inst.file_versions.length + 1) ++ "_" ++
                splitUnderscoreTail old,
              splitUnderscoreTail old, now⟩]⟩,
        fsWrite
          (fsRemove
            (fsWrite fs
              (uploadsPath (inst.id ++ "_v" ++
                toString (inst.file_versions.length + 1) ++ "_" ++
                splitUnderscoreTail old)) b)
            (uploadsPath old))
          (uploadsPath (inst.id ++ "_" ++ u.name)) u.content) := by
  unfold handleUpload archiveOldFile attachNewFile
  rw [hf]
  have he : fsExists fs (uploadsPath old) = true := by simp [fsExists, hb]
  simp [he, noFaults, hb, add_history_entry]

/-- Under `noFaults` an upload always succeeds and appends exactly one
`Файл` history entry; metadata fields are untouched by the file block. -/
theorem handleUpload_noFaults_history
    (now : String) (u : Upload) (inst : Instruction) (fs : FS) :
    ∃ i2 f2, handleUpload noFaults now u inst fs = .ok (i2, f2) ∧
      i2.history = inst.history ++
        [⟨now, "Файл", "Загружена новая версия файла: " ++ u.name, "Система"⟩] := by
  unfold handleUpload archiveOldFile attachNewFile
  cases hf : inst.filename with
  | none => exact ⟨_, _, rfl, by simp [add_history_entry]⟩
  | some old =>
    by_cases he : fsExists fs (uploadsPath old)
    · simp only [he, if_true, noFaults, if_false, Bool.false_eq_true]
      exact ⟨_, _, rfl, by simp [add_history_entry]⟩
    · simp only [he, if_false, Bool.false_eq_true, noFaults]
      exact ⟨_, _, rfl, by simp [add_history_entry]⟩

/-- For filenames of the shape the app creates (`<id>_<humanName>` with an
underscore-free id), `split('_', 1)[-1]` recovers the human name. -/
theorem splitUnderscoreTail_id_name (idStr : String) (hid : '_' ∉ idStr.data)
    (rest : String) :
    splitUnderscoreTail (idStr ++ "_" ++ rest) = rest := by
  have hdata : (idStr ++ "_" ++ rest).data = idStr.data ++ '_' :: rest.data := by
    simp [String.data_append]
  have haux : ∀ l : List Char, '_' ∉ l →
      splitUnderscoreTailAux (l ++ '_' :: rest.data) = some rest.data := by
    intro l
    induction l with
    | nil => intro _; simp [splitUnderscoreTailAux]
    | cons c t ih =>
      intro hc
      have hc1 : c ≠ '_' := fun e => hc (e ▸ List.mem_cons_self _ _)
      have hc2 : '_' ∉ t := fun e => hc (List.mem_cons_of_mem _ e)
      cases c with
      | mk v =>
        simp only [List.cons_append, splitUnderscoreTailAux]
        exact ih hc2
  unfold splitUnderscoreTail
  rw [hdata, haux idStr.data hid]

/-- C2 counterexample: record `i` has current artifact `i_a` (human name
`a`, bytes `[1]`).  Replacing it with an upload named `v1_a` (bytes `[2]`)
gives the versioned copy the name `i_v1_a` — which is also the new current
file's storage name `i_` ++ `v1_a`.  The write of the new file therefore
overwrites the archived copy: after the operation the single
`FileVersionEntry` points at `uploads/i_v1_a`, which holds the new
upload's bytes `[2]`, not the replaced artifact's bytes `[1]`.  The entry
emitted for the replaced artifact does not capture its stored bytes, so
the claim fails at this input. -/
theorem c2_replacement_counterexample :
    edit_instruction_update noFaults "t2" "T" "D" ⟨2024, 1, 1⟩ ⟨2024, 1, 1⟩ "R" "E"
        (some ⟨"v1_a", [2]⟩)
        ⟨"i", "T", "D", "2024-01-01", "2024-01-01", "R", "E", true, some "i_a", [], []⟩
        [("uploads/i_a", [1])] =
      .ok
        (⟨"i", "T", "D", "2024-01-01", "2024-01-01", "R", "E", true, some "i_v1_a",
          [⟨"t2", "Файл", "Загружена новая версия файла: v1_a", "Система"⟩],
          [⟨1, "i_v1_a", "a", "t2"⟩]⟩,
        [("uploads/i_v1_a", [2])]) ∧
      fsLookup [("uploads/i_v1_a", [2])] (uploadsPath "i_v1_a") ≠ some [1] := by
  constructor
  · rfl
  · decide

/-- C2 (amended): replacing the current artifact `old = <id>_<oldName>`
(present on disk with bytes `b`) appends exactly one `FileVersionEntry`
(version `count+1`, original name `oldName`), appends exactly one `Файл`
history entry, and makes the new upload the current reference with its
bytes on disk; and, provided the versioned storage name differs from the
new current storage name, the archived copy holds the replaced artifact's
bytes. -/
theorem c2_amended_file_replacement
    (now title department responsible email : String) (rd lu : PyDate) (u : Upload)
    (inst : Instruction) (fs : FS) (oldName : String) (b : Bytes)
    (hv : title ≠ "" ∧ department ≠ "" ∧ responsible ≠ "" ∧ email ≠ "")
    (hid : '_' ∉ inst.id.data)
    (hf : inst.filename = some (inst.id ++ "_" ++ oldName))
    (hb : fsLookup fs (uploadsPath (inst.id ++ "_" ++ oldName)) = some b)
    (hcol : inst.id ++ "_v" ++ toString (inst.file_versions.length + 1) ++ "_" ++ oldName ≠
      inst.id ++ "_" ++ u.name) :
    ∃ i2 f2,
      edit_instruction_update noFaults now title department rd lu responsible email
        (some u) inst fs = .ok (i2, f2) ∧
      i2.file_versions = inst.file_versions ++
        [⟨inst.file_versions.length + 1,
          inst.id ++ "_v" ++ toString (inst.file_versions.length + 1) ++ "_" ++ oldName,
          oldName, now⟩] ∧
      fsLookup f2 (uploadsPath
        (inst.id ++ "_v" ++ toString (inst.file_versions.length + 1) ++ "_" ++ oldName)) =
        some b ∧
      (i2.history.filter (fun e => e.change_type == "Файл")).length =
        (inst.history.filter (fun e => e.change_type == "Файл")).length + 1 ∧
      i2.filename = some (inst.id ++ "_" ++ u.name) ∧
      i2.has_file = true ∧
      fsLookup f2 (uploadsPath (inst.id ++ "_" ++ u.name)) = some u.content := by
  obtain ⟨hv1, hv2, hv3, hv4⟩ := hv
  have hvold : (inst.id ++ "_" ++ oldName) ≠
      (inst.id ++ "_v" ++ toString (inst.file_versions.length + 1) ++ "_" ++ oldName) := by
    intro h
    have := congrArg (fun s => s.data.length) h
    simp only [String.data_append, List.length_append, List.length_cons,
      List.length_nil] at this
    omega
  set instE := applyEditHistory now
    (changesList inst title department rd.strftimeYMD lu.strftimeYMD responsible email)
    (applyFieldUpdates inst title department rd.strftimeYMD lu.strftimeYMD
      responsible email) with hinstE
  have hEid : instE.id = inst.id := by
    simp [hinstE, applyEditHistory, applyFieldUpdates, add_history_entry]
    split <;> rfl
  have hEfn : instE.filename = inst.filename := by
    simp [hinstE, applyEditHistory, applyFieldUpdates, add_history_entry]
    split <;> rfl
  have hEfv : instE.file_versions = inst.file_versions := by
    simp [hinstE, applyEditHistory, applyFieldUpdates, add_history_entry]
    split <;> rfl
  have hEhist : instE.history = inst.history ++
      (if changesList inst title department rd.strftimeYMD lu.strftimeYMD responsible
        email = [] then []
      else [⟨now, "Редактирование",
        joinSep "; " (changesList inst title department rd.strftimeYMD lu.strftimeYMD
          responsible email), "Система"⟩]) := by
    simp only [hinstE, applyEditHistory]
    split
    · rename_i hc
      simp [if_neg hc, add_history_entry, applyFieldUpdates]
    · rename_i hc
      simp only [not_not] at hc
      simp [hc, applyFieldUpdates]
  have hmain := @handleUpload_noFaults_replace now u instE fs
    (inst.id ++ "_" ++ oldName) b (hEfn ▸ hf) hb
  have heq : edit_instruction_update noFaults now title department rd lu responsible
      email (some u) inst fs = handleUpload noFaults now u instE fs := by
    unfold edit_instruction_update
    rw [if_neg (by simp [hv1, hv2, hv3, hv4])]
  rw [hmain] at heq
  refine ⟨_, _, heq, ?_, ?_, ?_, ?_, ?_, ?_⟩
  · simp only [hEfv, hEid, splitUnderscoreTail_id_name inst.id hid oldName]
  · simp only [hEfv, hEid, splitUnderscoreTail_id_name inst.id hid oldName]
    rw [fsLookup_fsWrite_ne _ _ _ _
        (fun e => hcol (uploadsPath_injective e)),
      fsLookup_fsRemove_ne _ _ _
        (fun e => hvold (uploadsPath_injective e).symm),
      fsLookup_fsWrite_self]
  · simp only [hEhist, List.filter_append, List.length_append]
    split <;> simp
  · simp [hEid]
  · rfl
  · simp only [hEid]
    rw [fsLookup_fsWrite_self]

/-- Witness for the amended C2 at a concrete record, upload and disk. -/
theorem c2_amended_file_replacement_witness :
    ∃ i2 f2,
      edit_instruction_update noFaults "t2" "T" "D" ⟨2024, 1, 1⟩ ⟨2024, 1, 1⟩ "R" "E"
        (some ⟨"b2", [2]⟩)
        ⟨"i", "T", "D", "2024-01-01", "2024-01-01", "R", "E", true, some "i_a", [], []⟩
        [("uploads/i_a", [1])] = .ok (i2, f2) ∧
      i2.file_versions = [⟨1, "i_v1_a", "a", "t2"⟩] ∧
      fsLookup f2 (uploadsPath "i_v1_a") = some [1] ∧
      i2.filename = some "i_b2" ∧
      fsLookup f2 (uploadsPath "i_b2") = some [2] := by
  obtain ⟨i2, f2, h1, h2, h3, _, h5, _, h7⟩ :=
    c2_amended_file_replacement "t2" "T" "D" "R" "E" ⟨2024, 1, 1⟩ ⟨2024, 1, 1⟩
      ⟨"b2", [2]⟩
      ⟨"i", "T", "D", "2024-01-01", "2024-01-01", "R", "E", true, some "i_a", [], []⟩
      [("uploads/i_a", [1])] "a" [1]
      (by decide) (by decide) (by decide) (by decide) (by decide)
  exact ⟨i2, f2, h1, h2, h3, h5, h7⟩

/-- One fault-free replacement step, characterized without any
name-collision proviso: the version counter extends by `count+1`, the new
upload becomes current and its bytes are on disk under the new name. -/
theorem editUpdate_noFaults_step
    (now title department responsible email : String) (rd lu : PyDate) (u : Upload)
    (inst : Instruction) (fs : FS) (old : String) (b : Bytes)
    (hv : title ≠ "" ∧ department ≠ "" ∧ responsible ≠ "" ∧ email ≠ "")
    (hf : inst.filename = some old)
    (hb : fsLookup fs (uploadsPath old) = some b) :
    ∃ i2 f2,
      edit_instruction_update noFaults now title department rd lu responsible email
        (some u) inst fs = .ok (i2, f2) ∧
      i2.id = inst.id ∧
      i2.filename = some (inst.id ++ "_" ++ u.name) ∧
      i2.file_versions.map (fun v => v.version) =
        inst.file_versions.map (fun v => v.version) ++ [inst.file_versions.length + 1] ∧
      fsLookup f2 (uploadsPath (inst.id ++ "_" ++ u.name)) = some u.content := by
  obtain ⟨hv1, hv2, hv3, hv4⟩ := hv
  set instE := applyEditHistory now
    (changesList inst title department rd.strftimeYMD lu.strftimeYMD responsible email)
    (applyFieldUpdates inst title department rd.strftimeYMD lu.strftimeYMD
      responsible email) with hinstE
  have hEid : instE.id = inst.id := by
    rw [hinstE]
    unfold applyEditHistory
    split <;> simp [add_history_entry, applyFieldUpdates]
  have hEfn : instE.filename = inst.filename := by
    rw [hinstE]
    unfold applyEditHistory
    split <;> simp [add_history_entry, applyFieldUpdates]
  have hEfv : instE.file_versions = inst.file_versions := by
    rw [hinstE]
    unfold applyEditHistory
    split <;> simp [add_history_entry, applyFieldUpdates]
  have hmain := @handleUpload_noFaults_replace now u instE fs
    old b (hEfn ▸ hf) hb
  have heq : edit_instruction_update noFaults now title department rd lu responsible
      email (some u) inst fs = handleUpload noFaults now u instE fs := by
    unfold edit_instruction_update
    rw [if_neg (by simp [hv1, hv2, hv3, hv4])]
  rw [hmain] at heq
  refine ⟨_, _, heq, hEid, by rw [hEid], ?_, ?_⟩
  · simp [hEfv]
  · rw [hEid, fsLookup_fsWrite_self]

/-- N-fold file replacement: repeatedly submit the edit form with a fresh
upload (field values held fixed). -/
def replaceFiles (now title department : String) (rd lu : PyDate)
    (responsible email : String) :
    List Upload → Instruction → FS → OpResult (Instruction × FS)
  | [], inst, fs => .ok (inst, fs)
  | u :: us, inst, fs =>
    match edit_instruction_update noFaults now title department rd lu responsible
        email (some u) inst fs with
    | .ok (i2, f2) => replaceFiles now title department rd lu responsible email us i2 f2
    | .err m s => .err m s

/-- Invariant-carrying induction for `replaceFiles`: starting from version
numbers `1..k` and a current artifact on disk, `n` further replacements
succeed and extend the version numbers to `1..k+n`; the final current
artifact is the last upload (or the initial one when no upload occurs). -/
theorem replaceFiles_spec (now title department : String) (rd lu : PyDate)
    (responsible email : String)
    (hv : title ≠ "" ∧ department ≠ "" ∧ responsible ≠ "" ∧ email ≠ "") :
    ∀ (us : List Upload) (inst : Instruction) (fs : FS) (k : Nat) (f : String) (b : Bytes),
      inst.file_versions.map (fun v => v.version) = List.range' 1 k →
      inst.filename = some f →
      fsLookup fs (uploadsPath f) = some b →
      ∃ i2 f2,
        replaceFiles now title department rd lu responsible email us inst fs =
          .ok (i2, f2) ∧
        i2.id = inst.id ∧
        i2.file_versions.map (fun v => v.version) = List.range' 1 (k + us.length) ∧
        (us = [] → i2.filename = some f ∧ fsLookup f2 (uploadsPath f) = some b) ∧
        (∀ u, us.getLast? = some u →
          i2.filename = some (inst.id ++ "_" ++ u.name) ∧
          fsLookup f2 (uploadsPath (inst.id ++ "_" ++ u.name)) = some u.content) := by
  intro us
  induction us with
  | nil =>
    intro inst fs k f b hver hf hb
    exact ⟨inst, fs, rfl, rfl, by simpa using hver, fun _ => ⟨hf, hb⟩,
      fun u hu => by simp at hu⟩
  | cons u us ih =>
    intro inst fs k f b hver hf hb
    have hlen : inst.file_versions.length = k := by
      have := congrArg List.length hver
      simpa using this
    obtain ⟨i2, f2, hstep, hid, hfn, hfv, hlook⟩ :=
      editUpdate_noFaults_step now title department responsible email rd lu u inst fs
        f b hv hf hb
    have hver2 : i2.file_versions.map (fun v => v.version) = List.range' 1 (k + 1) := by
      rw [hfv, hver, hlen, List.range'_1_concat]
      simp [Nat.add_comm]
    obtain ⟨i3, f3, hrest, hid3, hver3, hnil3, hlast3⟩ :=
      ih i2 f2 (k + 1) (inst.id ++ "_" ++ u.name) u.content hver2 hfn hlook
    refine ⟨i3, f3, ?_, hid3.trans hid, ?_, ?_, ?_⟩
    · unfold replaceFiles
      rw [hstep]
      exact hrest
    · rw [hver3]
      congr 1
      simp only [List.length_cons]
      omega
    · intro h
      exact absurd h (List.cons_ne_nil _ _)
    · intro v hv2
      cases us with
      | nil =>
        simp only [List.getLast?_singleton, Option.some.injEq] at hv2
        subst hv2
        obtain ⟨ha, hb2⟩ := hnil3 rfl
        exact ⟨ha, hb2⟩
      | cons u2 us2 =>
        have : (u :: u2 :: us2).getLast? = (u2 :: us2).getLast? := rfl
        rw [this] at hv2
        obtain ⟨ha, hb2⟩ := hlast3 v hv2
        rw [hid] at ha hb2
        exact ⟨ha, hb2⟩

/-- C3: starting from a record with no archived versions and a current
artifact present on disk, N successive successful file replacements yield
exactly N `FileVersionEntry` objects whose version numbers are `1..N` in
insertion order, and the current artifact is the Nth upload with its
bytes stored under the current name. -/
theorem c3_n_replacements_versions (now title department : String) (rd lu : PyDate)
    (responsible email : String) (us : List Upload)
    (inst : Instruction) (fs : FS) (f0 : String) (b0 : Bytes)
    (hv : title ≠ "" ∧ department ≠ "" ∧ responsible ≠ "" ∧ email ≠ "")
    (hfv : inst.file_versions = [])
    (hf : inst.filename = some f0)
    (hb : fsLookup fs (uploadsPath f0) = some b0) :
    ∃ i2 f2,
      replaceFiles now title department rd lu responsible email us inst fs =
        .ok (i2, f2) ∧
      i2.file_versions.map (fun v => v.version) = List.range' 1 us.length ∧
      (∀ u, us.getLast? = some u →
        i2.filename = some (inst.id ++ "_" ++ u.name) ∧
        fsLookup f2 (uploadsPath (inst.id ++ "_" ++ u.name)) = some u.content) := by
  obtain ⟨i2, f2, hrun, _, hver, _, hlast⟩ :=
    replaceFiles_spec now title department rd lu responsible email hv us inst fs 0 f0 b0
      (by simp [hfv, List.range']) hf hb
  exact ⟨i2, f2, hrun, by simpa using hver, hlast⟩

/-- Witness for C3: two replacements on a concrete record produce version
numbers `[1, 2]` and leave the second upload current. -/
theorem c3_n_replacements_versions_witness :
    ∃ i2 f2,
      replaceFiles "t" "T" "D" ⟨2024, 1, 1⟩ ⟨2024, 1, 1⟩ "R" "E"
        [⟨"b", [2]⟩, ⟨"c", [3]⟩]
        ⟨"i", "T", "D", "2024-01-01", "2024-01-01", "R", "E", true, some "i_a", [], []⟩
        [("uploads/i_a", [1])] = .ok (i2, f2) ∧
      i2.file_versions.map (fun v => v.version) = [1, 2] ∧
      i2.filename = some "i_c" ∧
      fsLookup f2 (uploadsPath "i_c") = some [3] := by
  obtain ⟨i2, f2, hrun, hver, hlast⟩ :=
    c3_n_replacements_versions "t" "T" "D" ⟨2024, 1, 1⟩ ⟨2024, 1, 1⟩ "R" "E"
      [⟨"b", [2]⟩, ⟨"c", [3]⟩]
      ⟨"i", "T", "D", "2024-01-01", "2024-01-01", "R", "E", true, some "i_a", [], []⟩
      [("uploads/i_a", [1])] "i_a" [1]
      (by decide) rfl rfl rfl
  obtain ⟨hname, hbytes⟩ := hlast ⟨"c", [3]⟩ rfl
  exact ⟨i2, f2, hrun, by simpa [List.range'] using hver, hname, hbytes⟩

/-- Every element of the joined list occurs contiguously inside the join
(`'; '.join(changes)` mentions every change). -/
theorem joinSep_mem_infix (sep : String) (l : List String) (c : String) (hc : c ∈ l) :
    ∃ x y, (joinSep sep l).data = x ++ c.data ++ y := by
  induction l with
  | nil => simp at hc
  | cons a t ih =>
    cases t with
    | nil =>
      simp only [List.mem_singleton] at hc
      subst hc
      exact ⟨[], [], by simp [joinSep]⟩
    | cons b t2 =>
      have hstep : joinSep sep (a :: b :: t2) = a ++ sep ++ joinSep sep (b :: t2) := rfl
      rcases List.mem_cons.mp hc with h1 | h1
      · subst h1
        exact ⟨[], sep.data ++ (joinSep sep (b :: t2)).data, by
          simp [hstep, String.data_append]⟩
      · obtain ⟨x, y, hxy⟩ := ih h1
        exact ⟨a.data ++ sep.data ++ x, y, by
          simp [hstep, String.data_append, hxy]⟩

theorem ite_singleton_eq_nil {α : Type} (c : Prop) [Decidable c] (a : α) :
    (if c then [a] else []) = ([] : List α) ↔ ¬c := by
  split <;> simp_all

/-- `changes` is empty exactly when every submitted value equals the
current one. -/
theorem changesList_eq_nil_iff (inst : Instruction)
    (title department registration_date last_update responsible email : String) :
    changesList inst title department registration_date last_update responsible
      email = [] ↔
    (inst.title = title ∧ inst.department = department ∧
     inst.registration_date = registration_date ∧ inst.last_update = last_update ∧
     inst.responsible = responsible ∧ inst.email = email) := by
  simp [changesList, List.append_eq_nil, ite_singleton_eq_nil, not_not, and_assoc]

/-- C5 (core statement): a fault-free edit appends no `Редактирование`
history entry when `changes` is empty, and exactly one batched entry with
details `'; '.join(changes)` otherwise; each changed field contributes
its description to `changes`. -/
theorem c5_batched_edit_history
    (now title department responsible email : String) (rd lu : PyDate)
    (upload : Option Upload) (inst : Instruction) (fs : FS)
    (hv : title ≠ "" ∧ department ≠ "" ∧ responsible ≠ "" ∧ email ≠ "") :
    ∃ i2 f2,
      edit_instruction_update noFaults now title department rd lu responsible email
        upload inst fs = .ok (i2, f2) ∧
      i2.history.filter (fun e => e.change_type == "Редактирование") =
        inst.history.filter (fun e => e.change_type == "Редактирование") ++
          (if changesList inst title department rd.strftimeYMD lu.strftimeYMD
              responsible email = [] then []
           else [⟨now, "Редактирование",
             joinSep "; " (changesList inst title department rd.strftimeYMD
               lu.strftimeYMD responsible email), "Система"⟩]) ∧
      (inst.title ≠ title →
        ("Название: " ++ quoted inst.title ++ " → " ++ quoted title) ∈
          changesList inst title department rd.strftimeYMD lu.strftimeYMD
            responsible email) ∧
      (inst.department ≠ department →
        ("Подразделение: " ++ quoted inst.department ++ " → " ++ quoted department) ∈
          changesList inst title department rd.strftimeYMD lu.strftimeYMD
            responsible email) ∧
      (inst.registration_date ≠ rd.strftimeYMD →
        "Дата регистрации изменена" ∈
          changesList inst title department rd.strftimeYMD lu.strftimeYMD
            responsible email) ∧
      (inst.last_update ≠ lu.strftimeYMD →
        "Дата актуализации обновлена" ∈
          changesList inst title department rd.strftimeYMD lu.strftimeYMD
            responsible email) ∧
      (inst.responsible ≠ responsible →
        ("Ответственный: " ++ quoted inst.responsible ++ " → " ++ quoted responsible) ∈
          changesList inst title department rd.strftimeYMD lu.strftimeYMD
            responsible email) ∧
      (inst.email ≠ email →
        "Email изменен" ∈
          changesList inst title department rd.strftimeYMD lu.strftimeYMD
            responsible email) ∧
      (∀ c ∈ changesList inst title department rd.strftimeYMD lu.strftimeYMD
          responsible email,
        ∃ x y, (joinSep "; " (changesList inst title department rd.strftimeYMD
          lu.strftimeYMD responsible email)).data = x ++ c.data ++ y) := by
  obtain ⟨hv1, hv2, hv3, hv4⟩ := hv
  set chs := changesList inst title department rd.strftimeYMD lu.strftimeYMD
    responsible email with hchs
  set instE := applyEditHistory now chs
    (applyFieldUpdates inst title department rd.strftimeYMD lu.strftimeYMD
      responsible email) with hinstE
  have hEhist : instE.history = inst.history ++
      (if chs = [] then []
       else [⟨now, "Редактирование", joinSep "; " chs, "Система"⟩]) := by
    rw [hinstE]
    unfold applyEditHistory
    split
    · simp [add_history_entry, applyFieldUpdates]
    · rename_i hc
      simp only [not_not] at hc
      simp [hc, applyFieldUpdates]
  have hfilter : ∀ h2 : List HistoryEntry,
      h2 = instE.history →
      h2.filter (fun e => e.change_type == "Редактирование") =
        inst.history.filter (fun e => e.change_type == "Редактирование") ++
          (if chs = [] then []
           else [⟨now, "Редактирование", joinSep "; " chs, "Система"⟩]) := by
    intro h2 hh2
    rw [hh2, hEhist, List.filter_append]
    congr 1
    split <;> simp
  have hmention :
      (inst.title ≠ title →
        ("Название: " ++ quoted inst.title ++ " → " ++ quoted title) ∈ chs) ∧
      (inst.department ≠ department →
        ("Подразделение: " ++ quoted inst.department ++ " → " ++ quoted department) ∈ chs) ∧
      (inst.registration_date ≠ rd.strftimeYMD →
        "Дата регистрации изменена" ∈ chs) ∧
      (inst.last_update ≠ lu.strftimeYMD →
        "Дата актуализации обновлена" ∈ chs) ∧
      (inst.responsible ≠ responsible →
        ("Ответственный: " ++ quoted inst.responsible ++ " → " ++ quoted responsible) ∈ chs) ∧
      (inst.email ≠ email → "Email изменен" ∈ chs) := by
    refine ⟨?_, ?_, ?_, ?_, ?_, ?_⟩ <;>
      (intro hne; rw [hchs]; simp [changesList, hne])
  obtain ⟨hm1, hm2, hm3, hm4, hm5, hm6⟩ := hmention
  have hinfix := fun c hc => joinSep_mem_infix "; " chs c hc
  cases upload with
  | none =>
    refine ⟨instE, fs, ?_, hfilter _ rfl, hm1, hm2, hm3, hm4, hm5, hm6, hinfix⟩
    unfold edit_instruction_update
    rw [if_neg (by simp [hv1, hv2, hv3, hv4])]
  | some u =>
    obtain ⟨i2, f2, hup, hh⟩ := handleUpload_noFaults_history now u instE fs
    refine ⟨i2, f2, ?_, ?_, hm1, hm2, hm3, hm4, hm5, hm6, hinfix⟩
    · unfold edit_instruction_update
      rw [if_neg (by simp [hv1, hv2, hv3, hv4])]
      exact hup
    · rw [hh, List.filter_append]
      have hfile : (List.filter (fun e => e.change_type == "Редактирование")
          [⟨now, "Файл", "Загружена новая версия файла: " ++ u.name, "Система"⟩] :
            List HistoryEntry) = [] := by
        simp [List.filter]
      rw [hfile, List.append_nil]
      exact hfilter _ rfl

/-- Witness for C5: editing with one changed field (title) appends exactly
one batched `Редактирование` entry; editing with all fields unchanged
appends none. -/
theorem c5_batched_edit_history_witness :
    (∃ i2 f2,
      edit_instruction_update noFaults "t" "T2" "D" ⟨2024, 1, 1⟩ ⟨2024, 1, 1⟩ "R" "E"
        none ⟨"i", "T", "D", "2024-01-01", "2024-01-01", "R", "E", false, none, [], []⟩
        [] = .ok (i2, f2) ∧
      i2.history.filter (fun e => e.change_type == "Редактирование") =
        [⟨"t", "Редактирование", "Название: " ++ quoted "T" ++ " → " ++ quoted "T2",
          "Система"⟩]) ∧
    (∃ i3 f3,
      edit_instruction_update noFaults "t" "T" "D" ⟨2024, 1, 1⟩ ⟨2024, 1, 1⟩ "R" "E"
        none ⟨"i", "T", "D", "2024-01-01", "2024-01-01", "R", "E", false, none, [], []⟩
        [] = .ok (i3, f3) ∧
      i3.history.filter (fun e => e.change_type == "Редактирование") = []) := by
  constructor
  · obtain ⟨i2, f2, h1, h2, _⟩ :=
      c5_batched_edit_history "t" "T2" "D" "R" "E" ⟨2024, 1, 1⟩ ⟨2024, 1, 1⟩ none
        ⟨"i", "T", "D", "2024-01-01", "2024-01-01", "R", "E", false, none, [], []⟩ []
        (by decide)
    refine ⟨i2, f2, h1, ?_⟩
    rw [h2]
    decide
  · obtain ⟨i3, f3, h1, h2, _⟩ :=
      c5_batched_edit_history "t" "T" "D" "R" "E" ⟨2024, 1, 1⟩ ⟨2024, 1, 1⟩ none
        ⟨"i", "T", "D", "2024-01-01", "2024-01-01", "R", "E", false, none, [], []⟩ []
        (by decide)
    refine ⟨i3, f3, h1, ?_⟩
    rw [h2]
    decide

/-- C6 (code bug, non-atomicity): if `os.remove` of the old artifact fails
after the versioned copy was made (faults = copy ok, remove fails), the
exception propagates out of the block at app.py line 427, leaving the
in-memory record with `file_versions` already appended while the old
artifact is still on disk — exactly the partial state the claim forbids —
and with the new upload not yet written. -/
theorem c6_nonatomic_replacement_on_remove_failure :
    edit_instruction_update ⟨false, true, false⟩ "t" "T" "D" ⟨2024, 1, 1⟩ ⟨2024, 1, 1⟩
        "R" "E" (some ⟨"b", [2]⟩)
        ⟨"i", "T", "D", "2024-01-01", "2024-01-01", "R", "E", true, some "i_a", [], []⟩
        [("uploads/i_a", [1])] =
      .err "StorageError: remove"
        (⟨"i", "T", "D", "2024-01-01", "2024-01-01", "R", "E", true, some "i_a", [],
          [⟨1, "i_v1_a", "a", "t"⟩]⟩,
        [("uploads/i_a", [1]), ("uploads/i_v1_a", [1])]) ∧
      fsLookup [("uploads/i_a", [1]), ("uploads/i_v1_a", [1])] (uploadsPath "i_a") =
        some [1] ∧
      fsLookup [("uploads/i_a", [1]), ("uploads/i_v1_a", [1])] (uploadsPath "i_b") =
        none := by
  refine ⟨rfl, by decide, by decide⟩

/-- C7 counterexample: the validation error emitted by `add_instruction`
is the fixed message of app.py line 253, identical whichever required
field is missing — it does not list the missing fields. -/
theorem c7_validation_counterexample :
    add_instruction "t" "j" "" "D" ⟨2024, 1, 1⟩ ⟨2024, 1, 1⟩ "R" "E" none
        ⟨[], [], none⟩ =
      .err validationMsgAdd ⟨[], [], none⟩ ∧
    add_instruction "t" "j" "T" "D" ⟨2024, 1, 1⟩ ⟨2024, 1, 1⟩ "R" "" none
        ⟨[], [], none⟩ =
      .err validationMsgAdd ⟨[], [], none⟩ ∧
    validationMsgAdd = "❌ Заполните все обязательные поля (отмечены *)" := by
  refine ⟨rfl, rfl, rfl⟩

/-- C7 (amended): creation with an empty required text field fails with
the fixed validation message — no record is added, the directory and the
persisted collection are untouched (the `.err` carries the unchanged
state); with all fields non-empty it appends one record carrying the
supplied fresh id, a `Создание` history entry plus a `Файл` entry exactly
when a file accompanies creation, persists the new collection, and keeps
ids unique when the fresh id is new. -/
theorem c7_amended_create
    (now freshId title department responsible email : String) (rd lu : PyDate)
    (upload : Option Upload) (st : DashState) :
    ((title = "" ∨ department = "" ∨ responsible = "" ∨ email = "") →
      add_instruction now freshId title department rd lu responsible email upload st =
        .err validationMsgAdd st) ∧
    (title ≠ "" → department ≠ "" → responsible ≠ "" → email ≠ "" →
      ∃ r fs2,
        add_instruction now freshId title department rd lu responsible email upload st =
          .ok ⟨st.data ++ [r], fs2, some (st.data ++ [r])⟩ ∧
        r.id = freshId ∧
        r.history.map (fun e => e.change_type) =
          "Создание" :: (match upload with | some _ => ["Файл"] | none => []) ∧
        r.has_file = upload.isSome ∧
        (freshId ∉ st.data.map (fun x => x.id) →
          (st.data.map (fun x => x.id)).Nodup →
          ((st.data ++ [r]).map (fun x => x.id)).Nodup)) := by
  constructor
  · intro h
    unfold add_instruction
    rw [if_pos (by tauto)]
  · intro h1 h2 h3 h4
    unfold add_instruction
    rw [if_neg (by simp [h1, h2, h3, h4])]
    cases upload with
    | none =>
      refine ⟨_, _, rfl, rfl, by simp [add_history_entry], rfl, ?_⟩
      intro hnew hnd
      simp only [List.map_append, List.map_cons, List.map_nil, List.nodup_append]
      refine ⟨hnd, by simp, ?_⟩
      intro a ha
      simp only [add_history_entry, List.mem_singleton]
      intro hb
      rw [hb] at ha
      exact hnew ha
    | some u =>
      refine ⟨_, _, rfl, rfl, by simp [add_history_entry], rfl, ?_⟩
      intro hnew hnd
      simp only [List.map_append, List.map_cons, List.map_nil, List.nodup_append]
      refine ⟨hnd, by simp, ?_⟩
      intro a ha
      simp only [add_history_entry, List.mem_singleton]
      intro hb
      rw [hb] at ha
      exact hnew ha

/-- Witness for the amended C7: one rejected and one accepted creation. -/
theorem c7_amended_create_witness :
    (add_instruction "t" "j" "" "D" ⟨2024, 1, 1⟩ ⟨2024, 1, 1⟩ "R" "E" none
        ⟨[], [], none⟩ =
      .err validationMsgAdd ⟨[], [], none⟩) ∧
    ∃ r fs2,
      add_instruction "t" "j" "T" "D" ⟨2024, 1, 1⟩ ⟨2024, 1, 1⟩ "R" "E"
          (some ⟨"a", [1]⟩) ⟨[], [], none⟩ =
        .ok ⟨[] ++ [r], fs2, some ([] ++ [r])⟩ ∧
      r.id = "j" ∧
      r.history.map (fun e => e.change_type) = ["Создание", "Файл"] := by
  constructor
  · exact (c7_amended_create "t" "j" "" "D" "R" "E" ⟨2024, 1, 1⟩ ⟨2024, 1, 1⟩ none
      ⟨[], [], none⟩).1 (Or.inl rfl)
  · obtain ⟨r, fs2, ha, hb, hc, _⟩ :=
      (c7_amended_create "t" "j" "T" "D" "R" "E" ⟨2024, 1, 1⟩ ⟨2024, 1, 1⟩
        (some ⟨"a", [1]⟩) ⟨[], [], none⟩).2
        (by decide) (by decide) (by decide) (by decide)
    exact ⟨r, fs2, ha, hb, hc⟩

theorem fsLookup_eq_none_of_not_mem_keys (fs : FS) (p : String)
    (h : p ∉ fs.map Prod.fst) : fsLookup fs p = none := by
  induction fs with
  | nil => rfl
  | cons hd tl ih =>
    obtain ⟨q, c⟩ := hd
    simp only [List.map_cons, List.mem_cons, not_or] at h
    simp only [fsLookup, if_neg (Ne.symm h.1)]
    exact ih h.2

theorem fsLookup_fsRemove_self (fs : FS) (p : String)
    (h : (fs.map Prod.fst).Nodup) : fsLookup (fsRemove fs p) p = none := by
  induction fs with
  | nil => rfl
  | cons hd tl ih =>
    obtain ⟨q, c⟩ := hd
    simp only [List.map_cons, List.nodup_cons] at h
    simp only [fsRemove]
    by_cases hq : q = p
    · rw [if_pos hq]
      exact fsLookup_eq_none_of_not_mem_keys tl p (hq ▸ h.1)
    · rw [if_neg hq]
      simp only [fsLookup, if_neg hq]
      exact ih h.2

/-- C10 counterexample, on a state reachable by the operations themselves:
create record `i` with file `a`, then replace the file with an upload
named `v1_a`.  The versioned copy and the new current file share the
storage name `i_v1_a`.  Deleting the record then deletes the file
`uploads/i_v1_a`, which is the stored artifact of the record's archived
version 1 — an archived version artifact is not retained on disk. -/
theorem c10_delete_counterexample :
    edit_instruction noFaults "t2" "i" "T" "D" ⟨2024, 1, 1⟩ ⟨2024, 1, 1⟩ "R" "E"
        (some ⟨"v1_a", [2]⟩)
        (add_instruction "t1" "i" "T" "D" ⟨2024, 1, 1⟩ ⟨2024, 1, 1⟩ "R" "E"
          (some ⟨"a", [1]⟩) ⟨[], [], none⟩).state =
      .ok
        ⟨[⟨"i", "T", "D", "2024-01-01", "2024-01-01", "R", "E", true, some "i_v1_a",
            [⟨"t1", "Создание", "Создана новая инструкция \"T\"", "Система"⟩,
             ⟨"t1", "Файл", "Загружен файл: a", "Система"⟩,
             ⟨"t2", "Файл", "Загружена новая версия файла: v1_a", "Система"⟩],
            [⟨1, "i_v1_a", "a", "t2"⟩]⟩],
          [("uploads/i_v1_a", [2])],
          some [⟨"i", "T", "D", "2024-01-01", "2024-01-01", "R", "E", true,
            some "i_v1_a",
            [⟨"t1", "Создание", "Создана новая инструкция \"T\"", "Система"⟩,
             ⟨"t1", "Файл", "Загружен файл: a", "Система"⟩,
             ⟨"t2", "Файл", "Загружена новая версия файла: v1_a", "Система"⟩],
            [⟨1, "i_v1_a", "a", "t2"⟩]⟩]⟩ ∧
    (delete_instruction
        ⟨"i", "T", "D", "2024-01-01", "2024-01-01", "R", "E", true, some "i_v1_a",
          [⟨"t1", "Создание", "Создана новая инструкция \"T\"", "Система"⟩,
           ⟨"t1", "Файл", "Загружен файл: a", "Система"⟩,
           ⟨"t2", "Файл", "Загружена новая версия файла: v1_a", "Система"⟩],
          [⟨1, "i_v1_a", "a", "t2"⟩]⟩
        ⟨[⟨"i", "T", "D", "2024-01-01", "2024-01-01", "R", "E", true, some "i_v1_a",
            [⟨"t1", "Создание", "Создана новая инструкция \"T\"", "Система"⟩,
             ⟨"t1", "Файл", "Загружен файл: a", "Система"⟩,
             ⟨"t2", "Файл", "Загружена новая версия файла: v1_a", "Система"⟩],
            [⟨1, "i_v1_a", "a", "t2"⟩]⟩],
          [("uploads/i_v1_a", [2])],
          some [⟨"i", "T", "D", "2024-01-01", "2024-01-01", "R", "E", true,
            some "i_v1_a",
            [⟨"t1", "Создание", "Создана новая инструкция \"T\"", "Система"⟩,
             ⟨"t1", "Файл", "Загружен файл: a", "Система"⟩,
             ⟨"t2", "Файл", "Загружена новая версия файла: v1_a", "Система"⟩],
            [⟨1, "i_v1_a", "a", "t2"⟩]⟩]⟩).fs = [] ∧
    fsLookup ([] : FS) (uploadsPath "i_v1_a") = none := by
  refine ⟨rfl, rfl, rfl⟩

/-- C10 (amended): deleting a record removes it from the collection,
persists the shrunken collection, leaves every other record untouched,
touches no file other than the one stored under the record's current
filename, removes that file (unique directory keys), and retains every
archived version artifact whose storage name differs from the current
one. -/
theorem c10_amended_delete (inst : Instruction) (st : DashState) (f : String)
    (hf : inst.filename = some f) :
    (delete_instruction inst st).data = removeFirst st.data inst ∧
    (delete_instruction inst st).stored = some (removeFirst st.data inst) ∧
    (∀ r ∈ (delete_instruction inst st).data, r ∈ st.data) ∧
    (∀ p, p ≠ uploadsPath f →
      fsLookup (delete_instruction inst st).fs p = fsLookup st.fs p) ∧
    ((st.fs.map Prod.fst).Nodup →
      fsLookup (delete_instruction inst st).fs (uploadsPath f) = none) ∧
    (∀ v ∈ inst.file_versions, v.filename ≠ f →
      fsLookup (delete_instruction inst st).fs (uploadsPath v.filename) =
        fsLookup st.fs (uploadsPath v.filename)) := by
  refine ⟨?_, ?_, ?_, ?_, ?_, ?_⟩
  · rfl
  · rfl
  · intro r hr
    exact mem_removeFirst hr
  · intro p hp
    unfold delete_instruction
    rw [hf]
    by_cases he : fsExists st.fs (uploadsPath f)
    · simp only [he, if_true]
      exact fsLookup_fsRemove_ne st.fs (uploadsPath f) p hp
    · simp only [he, if_false, Bool.false_eq_true]
  · intro hnd
    unfold delete_instruction
    rw [hf]
    by_cases he : fsExists st.fs (uploadsPath f)
    · simp only [he, if_true]
      exact fsLookup_fsRemove_self st.fs (uploadsPath f) hnd
    · simp only [he, if_false, Bool.false_eq_true]
      exact Option.not_isSome_iff_eq_none.mp (by simpa [fsExists] using he)
  · intro v _ hvf
    unfold delete_instruction
    rw [hf]
    by_cases he : fsExists st.fs (uploadsPath f)
    · simp only [he, if_true]
      exact fsLookup_fsRemove_ne st.fs (uploadsPath f) (uploadsPath v.filename)
        (fun e => hvf (uploadsPath_injective e))
    · simp only [he, if_false, Bool.false_eq_true]

/-- Witness for the amended C10 at a concrete two-record state. -/
theorem c10_amended_delete_witness :
    ((delete_instruction
        ⟨"i", "T", "D", "2024-01-01", "2024-01-01", "R", "E", true, some "i_a",
          [], [⟨1, "i_v1_b", "b", "t"⟩]⟩
        ⟨[⟨"i", "T", "D", "2024-01-01", "2024-01-01", "R", "E", true, some "i_a",
            [], [⟨1, "i_v1_b", "b", "t"⟩]⟩,
          ⟨"k", "U", "D", "2024-01-01", "2024-01-01", "R", "E", false, none, [], []⟩],
          [("uploads/i_a", [1]), ("uploads/i_v1_b", [2])], none⟩).data =
      removeFirst
        [⟨"i", "T", "D", "2024-01-01", "2024-01-01", "R", "E", true, some "i_a",
          [], [⟨1, "i_v1_b", "b", "t"⟩]⟩,
         ⟨"k", "U", "D", "2024-01-01", "2024-01-01", "R", "E", false, none, [], []⟩]
        ⟨"i", "T", "D", "2024-01-01", "2024-01-01", "R", "E", true, some "i_a",
          [], [⟨1, "i_v1_b", "b", "t"⟩]⟩) ∧
    ("uploads/i_v1_b" ≠ uploadsPath "i_a" ∧
      fsLookup (delete_instruction
        ⟨"i", "T", "D", "2024-01-01", "2024-01-01", "R", "E", true, some "i_a",
          [], [⟨1, "i_v1_b", "b", "t"⟩]⟩
        ⟨[⟨"i", "T", "D", "2024-01-01", "2024-01-01", "R", "E", true, some "i_a",
            [], [⟨1, "i_v1_b", "b", "t"⟩]⟩,
          ⟨"k", "U", "D", "2024-01-01", "2024-01-01", "R", "E", false, none, [], []⟩],
          [("uploads/i_a", [1]), ("uploads/i_v1_b", [2])], none⟩).fs
        "uploads/i_v1_b" =
      fsLookup [("uploads/i_a", [1]), ("uploads/i_v1_b", [2])] "uploads/i_v1_b") ∧
    fsLookup (delete_instruction
        ⟨"i", "T", "D", "2024-01-01", "2024-01-01", "R", "E", true, some "i_a",
          [], [⟨1, "i_v1_b", "b", "t"⟩]⟩
        ⟨[⟨"i", "T", "D", "2024-01-01", "2024-01-01", "R", "E", true, some "i_a",
            [], [⟨1, "i_v1_b", "b", "t"⟩]⟩,
          ⟨"k", "U", "D", "2024-01-01", "2024-01-01", "R", "E", false, none, [], []⟩],
          [("uploads/i_a", [1]), ("uploads/i_v1_b", [2])], none⟩).fs
      (uploadsPath "i_a") = none := by
  obtain ⟨h1, _, _, h4, h5, _⟩ :=
    c10_amended_delete
      ⟨"i", "T", "D", "2024-01-01", "2024-01-01", "R", "E", true, some "i_a",
        [], [⟨1, "i_v1_b", "b", "t"⟩]⟩
      ⟨[⟨"i", "T", "D", "2024-01-01", "2024-01-01", "R", "E", true, some "i_a",
          [], [⟨1, "i_v1_b", "b", "t"⟩]⟩,
        ⟨"k", "U", "D", "2024-01-01", "2024-01-01", "R", "E", false, none, [], []⟩],
        [("uploads/i_a", [1]), ("uploads/i_v1_b", [2])], none⟩
      "i_a" rfl
  exact ⟨h1, ⟨by decide, h4 "uploads/i_v1_b" (by decide)⟩, h5 (by decide)⟩

/-! ## StalenessPolicy: `is_outdated` (app.py lines 68-78)

`datetime.strptime(s, "%Y-%m-%d")` is modelled after CPython's
`_strptime`: the format compiles to the regex
`(\d\d\d\d)-(1[0-2]|0[1-9]|[1-9])-(3[01]|[12]\d|0[1-9]|[1-9])`, matched at
position 0 with the usual leftmost-alternative backtracking; any
unconverted trailing characters raise `ValueError`, as does the
`datetime` constructor for a day beyond the month's length or a year
below `MINYEAR = 1`.  (ASCII digits only; Python's `\d` would also admit
other Unicode decimal digits.)  Instants are modelled as integer seconds
on the proleptic-Gregorian axis of `datetime.toordinal`, midnight of day
one being 86400. -/

def digitVal (c : Char) : Nat := c.toNat - 48

/-- Month alternatives `1[0-2]|0[1-9]|[1-9]`, in preference order. -/
def monthAlts (cs : List Char) : List (Nat × List Char) :=
  (match cs with
   | '1' :: c :: r => if '0' ≤ c ∧ c ≤ '2' then [(10 + digitVal c, r)] else []
   | _ => []) ++
  (match cs with
   | '0' :: c :: r => if '1' ≤ c ∧ c ≤ '9' then [(digitVal c, r)] else []
   | _ => []) ++
  (match cs with
   | c :: r => if '1' ≤ c ∧ c ≤ '9' then [(digitVal c, r)] else []
   | _ => [])

/-- Day alternatives `3[01]|[12]\d|0[1-9]|[1-9]`, in preference order. -/
def dayAlts (cs : List Char) : List (Nat × List Char) :=
  (match cs with
   | '3' :: c :: r => if c = '0' ∨ c = '1' then [(30 + digitVal c, r)] else []
   | _ => []) ++
  (match cs with
   | c1 :: c2 :: r =>
     if (c1 = '1' ∨ c1 = '2') ∧ c2.isDigit then
       [(10 * digitVal c1 + digitVal c2, r)] else []
   | _ => []) ++
  (match cs with
   | '0' :: c :: r => if '1' ≤ c ∧ c ≤ '9' then [(digitVal c, r)] else []
   | _ => []) ++
  (match cs with
   | c :: r => if '1' ≤ c ∧ c ≤ '9' then [(digitVal c, r)] else []
   | _ => [])

/-- Python's proleptic-Gregorian leap rule (`calendar.isleap`). -/
def pyIsLeap (y : Nat) : Bool :=
  decide ((y % 4 = 0 ∧ ¬y % 100 = 0) ∨ y % 400 = 0)

/-- Length of month `m` of year `y` (`datetime`'s `_days_in_month`). -/
def daysInMonth (y m : Nat) : Nat :=
  if m = 2 then (if pyIsLeap y then 29 else 28)
  else if m = 4 ∨ m = 6 ∨ m = 9 ∨ m = 11 then 30
  else 31

/-- Cumulative day counts before month `m` in a non-leap year. -/
def cumDaysBeforeMonth (m : Nat) : Nat :=
  match m with
  | 1 => 0 | 2 => 31 | 3 => 59 | 4 => 90 | 5 => 120 | 6 => 151
  | 7 => 181 | 8 => 212 | 9 => 243 | 10 => 273 | 11 => 304 | 12 => 334
  | _ => 0

/-- `datetime.date.toordinal`: day number with 0001-01-01 as day 1. -/
def toOrdinal (d : PyDate) : Nat :=
  365 * (d.year - 1) + (d.year - 1) / 4 - (d.year - 1) / 100 + (d.year - 1) / 400 +
    cumDaysBeforeMonth d.month +
    (if 3 ≤ d.month ∧ pyIsLeap d.year then 1 else 0) + d.day

/-- The instant (in seconds) of midnight of date `d`. -/
def tsOfDate (d : PyDate) : Int := (toOrdinal d : Int) * 86400

/-- `datetime.strptime(s, "%Y-%m-%d")`, returning `none` where Python
raises `ValueError`. -/
def pyStrptimeYMD (s : String) : Option PyDate :=
  match s.data with
  | c1 :: c2 :: c3 :: c4 :: '-' :: rest =>
    if c1.isDigit ∧ c2.isDigit ∧ c3.isDigit ∧ c4.isDigit then
      let y := 1000 * digitVal c1 + 100 * digitVal c2 + 10 * digitVal c3 + digitVal c4
      match (monthAlts rest).findSome? (fun md =>
        match md.2 with
        | '-' :: r2 => (dayAlts r2).head?.map (fun dd => (md.1, dd.1, dd.2))
        | _ => none) with
      | some (m, d, r3) =>
        if r3 = [] then
          if 1 ≤ y ∧ d ≤ daysInMonth y m then some ⟨y, m, d⟩ else none
        else none
      | none => none
    else none
  | _ => none

/-- `is_outdated(last_update_date, months_threshold)` (app.py lines
68-78), with `datetime.now()` passed in as the instant `now`.  The Python
function is total by construction: falsy input and `ValueError` from
`strptime` both yield `True`. -/
def is_outdated (last_update_date : Option String) (months_threshold : Nat)
    (now : Int) : Bool :=
  match last_update_date with
  | none => true
  | some s =>
    if s = "" then true
    else
      match pyStrptimeYMD s with
      | none => true
      | some d => decide (tsOfDate d < now - (months_threshold * 30 : Nat) * 86400)

example : pyStrptimeYMD "2024-01-31" = some ⟨2024, 1, 31⟩ := by decide
example : pyStrptimeYMD "2023-2-5" = some ⟨2023, 2, 5⟩ := by decide
example : pyStrptimeYMD "2024-02-29" = some ⟨2024, 2, 29⟩ := by decide
example : pyStrptimeYMD "2023-02-29" = none := by decide
example : pyStrptimeYMD "2023-13-01" = none := by decide
example : pyStrptimeYMD "0000-01-01" = none := by decide
example : pyStrptimeYMD "2023-12-315" = none := by decide
example : pyStrptimeYMD "2023-123-4" = none := by decide
example : pyStrptimeYMD "" = none := by decide
example : toOrdinal ⟨1, 1, 1⟩ = 1 := by decide
example : toOrdinal ⟨2024, 3, 1⟩ = toOrdinal ⟨2024, 2, 29⟩ + 1 := by decide
example : is_outdated (some "2023-01-01") 12 (tsOfDate ⟨2024, 6, 1⟩) = true := by decide
example : is_outdated (some "2024-06-01") 12 (tsOfDate ⟨2024, 6, 1⟩) = false := by decide
example : is_outdated none 12 0 = true := rfl
example : is_outdated (some "") 12 0 = true := rfl
example : is_outdated (some "not a date") 12 0 = true := by decide

/-- C4: `is_outdated` is true exactly when the date is absent
(`None`/empty), fails to parse as `%Y-%m-%d`, or is strictly earlier than
`now` minus `months_threshold * 30` days; with the default threshold 12
the cutoff is exactly 360 days.  Totality (never raises) holds by
construction: the embedding is a total function mirroring the Python
`try`/`except` that converts every `ValueError` to `True`. -/
theorem c4_is_outdated_characterization (lu : Option String) (threshold : Nat)
    (now : Int) :
    (is_outdated lu threshold now = true ↔
      (lu = none ∨ lu = some "" ∨
       (∃ s, lu = some s ∧ s ≠ "" ∧ pyStrptimeYMD s = none) ∨
       (∃ s d, lu = some s ∧ pyStrptimeYMD s = some d ∧
         tsOfDate d < now - (threshold * 30 : Nat) * 86400))) ∧
    (is_outdated lu 12 now = true ↔
      (lu = none ∨ lu = some "" ∨
       (∃ s, lu = some s ∧ s ≠ "" ∧ pyStrptimeYMD s = none) ∨
       (∃ s d, lu = some s ∧ pyStrptimeYMD s = some d ∧
         tsOfDate d < now - 360 * 86400))) := by
  have key : ∀ th : Nat, (is_outdated lu th now = true ↔
      (lu = none ∨ lu = some "" ∨
       (∃ s, lu = some s ∧ s ≠ "" ∧ pyStrptimeYMD s = none) ∨
       (∃ s d, lu = some s ∧ pyStrptimeYMD s = some d ∧
         tsOfDate d < now - (th * 30 : Nat) * 86400))) := by
    intro th
    cases lu with
    | none => simp [is_outdated]
    | some s =>
      by_cases hs : s = ""
      · subst hs
        simp [is_outdated]
      · cases hp : pyStrptimeYMD s with
        | none => simp [is_outdated, hs, hp]
        | some d => simp [is_outdated, hs, hp]
  constructor
  · exact key threshold
  · have h360 : ((12 * 30 : Nat) : Int) * 86400 = 360 * 86400 := by norm_num
    rw [key 12, h360]

/-! ## Persistence: `load_data` / `save_data` (app.py lines 17-30)

The persisted file is JSON text; `json.load` / `json.dump(data,
ensure_ascii=False, indent=2)` are modelled over a JSON value type.
Numbers are modelled as integers: the collections this program writes
contain only strings, booleans, integers, nulls, arrays and objects
(floating-point parsing, `NaN`/`Infinity`, and lone-surrogate `\\u`
escapes, which `json.loads` would accept but `json.dump` never emits,
are outside the model — on such inputs the modelled parser fails where
Python would succeed).  Objects keep insertion order; duplicate keys
collapse Python-style (first position, last value). -/

inductive J where
  | null : J
  | bool : Bool → J
  | int : Int → J
  | str : List Char → J
  | arr : List J → J
  | obj : List (List Char × J) → J
deriving Repr

/-- `{`, written without a brace character. -/
def lbrace : Char := Char.ofNat 123

/-- `}`, written without a brace character. -/
def rbrace : Char := Char.ofNat 125

/-- Lowercase hexadecimal digit, as produced by Python's `'\\u%04x'`. -/
def hexDigit (n : Nat) : Char :=
  if n < 10 then Char.ofNat (48 + n) else Char.ofNat (87 + n)

/-- Escaping of one character inside a dumped string
(`json.encoder.py_encode_basestring`, `ensure_ascii=False`): the regex
`[\\"\x00-\x1f]` is replaced via `ESCAPE_DCT`, every other character is
emitted as-is. -/
def escapeChar (c : Char) : List Char :=
  if c = '"' then ['\\', '"']
  else if c = '\\' then ['\\', '\\']
  else if c = '\n' then ['\\', 'n']
  else if c = '\r' then ['\\', 'r']
  else if c = '\t' then ['\\', 't']
  else if c = Char.ofNat 8 then ['\\', 'b']
  else if c = Char.ofNat 12 then ['\\', 'f']
  else if c.toNat < 32 then
    ['\\', 'u', '0', '0', hexDigit (c.toNat / 16), hexDigit (c.toNat % 16)]
  else [c]

/-- A dumped JSON string: quote, escaped content, quote. -/
def escapeString (cs : List Char) : List Char :=
  '"' :: (cs.map escapeChar).flatten ++ ['"']

/-- Decimal digits of `n`, most significant first. -/
def natToCharsAux (n : Nat) (acc : List Char) : List Char :=
  if h : n < 10 then Char.ofNat (48 + n) :: acc
  else natToCharsAux (n / 10) (Char.ofNat (48 + n % 10) :: acc)
termination_by n
decreasing_by exact Nat.div_lt_self (by omega) (by omega)

def natToChars (n : Nat) : List Char := natToCharsAux n []

/-- Python `repr` of an int. -/
def intToChars (i : Int) : List Char :=
  if i < 0 then '-' :: natToChars i.natAbs else natToChars i.toNat

/-- The indentation prefix at depth `d` for `indent=2`. -/
def indentChars (d : Nat) : List Char := List.replicate (2 * d) ' '

mutual

/-- `json.dump(v, ensure_ascii=False, indent=2)` at nesting depth `d`. -/
def dumpV : J → Nat → List Char
  | .null, _ => ['n', 'u', 'l', 'l']
  | .bool true, _ => ['t', 'r', 'u', 'e']
  | .bool false, _ => ['f', 'a', 'l', 's', 'e']
  | .int i, _ => intToChars i
  | .str s, _ => escapeString s
  | .arr [], _ => ['[', ']']
  | .arr (x :: xs), d =>
    '[' :: '\n' :: (indentChars (d + 1) ++ dumpItems x xs (d + 1)) ++
      '\n' :: (indentChars d ++ [']'])
  | .obj [], _ => [lbrace, rbrace]
  | .obj (kv :: kvs), d =>
    lbrace :: '\n' :: (indentChars (d + 1) ++ dumpMembers kv kvs (d + 1)) ++
      '\n' :: (indentChars d ++ [rbrace])
termination_by v _ => sizeOf v
decreasing_by
  all_goals simp_wf
  all_goals omega

/-- The comma-newline separated items of a non-empty array (the leading
indent of the first item is emitted by the caller). -/
def dumpItems : J → List J → Nat → List Char
  | x, [], d => dumpV x d
  | x, y :: ys, d =>
    dumpV x d ++ ',' :: '\n' :: (indentChars d ++ dumpItems y ys d)
termination_by x xs _ => 1 + sizeOf x + sizeOf xs
decreasing_by
  all_goals simp_wf
  all_goals omega

/-- The members of a non-empty object, separated by `": "` and
comma-newline. -/
def dumpMembers : (List Char × J) → List (List Char × J) → Nat → List Char
  | (k, v), [], d => escapeString k ++ ':' :: ' ' :: dumpV v d
  | (k, v), m :: ms, d =>
    escapeString k ++ ':' :: ' ' :: dumpV v d ++
      ',' :: '\n' :: (indentChars d ++ dumpMembers m ms d)
termination_by kv kvs _ => 1 + sizeOf kv + sizeOf kvs
decreasing_by
  all_goals simp_wf
  all_goals omega

end

/-- `save_data` (app.py lines 27-30): serialize the collection value to
the text written to `data/instructions.json`. -/
def save_data (v : J) : String := String.mk (dumpV v 0)

/-- JSON whitespace (`[ \t\n\r]*`). -/
def isJsonWs (c : Char) : Bool := c = ' ' ∨ c = '\t' ∨ c = '\n' ∨ c = '\r'

def skipWs : List Char → List Char
  | [] => []
  | c :: r => if isJsonWs c then skipWs r else c :: r

def hexVal? (c : Char) : Option Nat :=
  if '0' ≤ c ∧ c ≤ '9' then some (c.toNat - 48)
  else if 'a' ≤ c ∧ c ≤ 'f' then some (c.toNat - 87)
  else if 'A' ≤ c ∧ c ≤ 'F' then some (c.toNat - 55)
  else none

/-- Four hexadecimal digits, as after `\\u`. -/
def hex4 : List Char → Option (Nat × List Char)
  | h1 :: h2 :: h3 :: h4 :: r =>
    match hexVal? h1 with
    | none => none
    | some a =>
      match hexVal? h2 with
      | none => none
      | some b =>
        match hexVal? h3 with
        | none => none
        | some c =>
          match hexVal? h4 with
          | none => none
          | some d => some (4096 * a + 256 * b + 16 * c + d, r)
  | _ => none

/-- One escape sequence, after the backslash: the decoded character and
the remaining input.  `\\uXXXX` combines surrogate pairs; a lone
surrogate fails (Python would keep it, but no dump emits one). -/
def pEsc (s : List Char) : Option (Char × List Char) :=
  match s with
  | [] => none
  | e :: r =>
    if e = '"' then some ('"', r)
    else if e = '\\' then some ('\\', r)
    else if e = '/' then some ('/', r)
    else if e = 'b' then some (Char.ofNat 8, r)
    else if e = 'f' then some (Char.ofNat 12, r)
    else if e = 'n' then some ('\n', r)
    else if e = 'r' then some ('\r', r)
    else if e = 't' then some ('\t', r)
    else if e = 'u' then
      match hex4 r with
      | none => none
      | some (u, r3) =>
        if 55296 ≤ u ∧ u ≤ 56319 then
          match r3 with
          | '\\' :: 'u' :: rr =>
            match hex4 rr with
            | none => none
            | some (w, r5) =>
              if 56320 ≤ w ∧ w ≤ 57343 then
                some (Char.ofNat (65536 + 1024 * (u - 55296) + (w - 56320)), r5)
              else none
          | _ => none
        else if 56320 ≤ u ∧ u ≤ 57343 then none
        else some (Char.ofNat u, r3)
    else none

/-- Fuelled JSON string scanner (each step consumes at least one input
character, so `length + 1` fuel is never exhausted): input begins after
the opening quote; backslash escapes are decoded by `pEsc`; raw control
characters are rejected. -/
def pStrF : Nat → List Char → Option (List Char × List Char)
  | 0, _ => none
  | _ + 1, [] => none
  | f + 1, c :: r =>
    if c = '"' then some ([], r)
    else if c = '\\' then
      match pEsc r with
      | none => none
      | some (ch, r2) => (pStrF f r2).map (fun p => (ch :: p.1, p.2))
    else if c.toNat < 32 then none
    else (pStrF f r).map (fun p => (c :: p.1, p.2))

/-- JSON string scanner (`py_scanstring`, strict). -/
def pStr (s : List Char) : Option (List Char × List Char) :=
  pStrF (s.length + 1) s

/-- Maximal decimal digit run, extending the already-read value `v`. -/
def pDigitsRun (v : Nat) : List Char → Nat × List Char
  | [] => (v, [])
  | c :: r => if c.isDigit then pDigitsRun (10 * v + digitVal c) r else (v, c :: r)

/-- JSON integer part `0|[1-9]\d*`. -/
def pNat : List Char → Option (Nat × List Char)
  | [] => none
  | c :: r =>
    if c = '0' then some (0, r)
    else if c.isDigit then some (pDigitsRun (digitVal c) r)
    else none

/-- Does `[+-]?\d` follow (so that an exponent part would match)? -/
def expFollows : List Char → Bool
  | [] => false
  | c :: r =>
    if c = '+' ∨ c = '-' then
      match r with
      | d :: _ => d.isDigit
      | [] => false
    else c.isDigit

/-- After the integer part: a fractional or exponent continuation makes
the number a float, which the model does not represent. -/
def pNumTail (v : Int) (rest : List Char) : Option (Int × List Char) :=
  match rest with
  | '.' :: c :: _ => if c.isDigit then none else some (v, rest)
  | c :: r => if (c = 'e' ∨ c = 'E') ∧ expFollows r then none else some (v, rest)
  | [] => some (v, rest)

/-- JSON number (integers only). -/
def pNum (s : List Char) : Option (Int × List Char) :=
  match s with
  | [] => none
  | c :: r =>
    if c = '-' then
      match pNat r with
      | some (n, rest) => pNumTail (-(n : Int)) rest
      | none => none
    else
      match pNat (c :: r) with
      | some (n, rest) => pNumTail (n : Int) rest
      | none => none

/-- Python-style object-pair accumulation: `dict(pairs)` keeps the first
position and the last value of a duplicated key. -/
def objInsert (kvs : List (List Char × J)) (k : List Char) (v : J) :
    List (List Char × J) :=
  match kvs with
  | [] => [(k, v)]
  | (k1, v1) :: rest =>
    if k1 = k then (k1, v) :: rest else (k1, v1) :: objInsert rest k v

mutual

/-- `json.loads` value scanner, fuelled: one unit of fuel per grammar
step, dispatching on the first character exactly like `py_make_scanner`
(string, object, array, `null`, `true`, `false`, number). -/
def pVal : Nat → List Char → Option (J × List Char)
  | 0, _ => none
  | Nat.succ f, s =>
    match s with
    | [] => none
    | c :: r =>
      if c = '"' then (pStr r).map (fun p => (.str p.1, p.2))
      else if c = lbrace then
        match skipWs r with
        | c2 :: r2 =>
          if c2 = rbrace then some (.obj [], r2)
          else (pMembers f (c2 :: r2) []).map (fun p => (.obj p.1, p.2))
        | [] => none
      else if c = '[' then
        match skipWs r with
        | c2 :: r2 =>
          if c2 = ']' then some (.arr [], r2)
          else (pItems f (c2 :: r2) []).map (fun p => (.arr p.1, p.2))
        | [] => none
      else if c = 'n' then
        match r with
        | 'u' :: 'l' :: 'l' :: r2 => some (.null, r2)
        | _ => none
      else if c = 't' then
        match r with
        | 'r' :: 'u' :: 'e' :: r2 => some (.bool true, r2)
        | _ => none
      else if c = 'f' then
        match r with
        | 'a' :: 'l' :: 's' :: 'e' :: r2 => some (.bool false, r2)
        | _ => none
      else if c = '-' ∨ c.isDigit then
        (pNum (c :: r)).map (fun p => (.int p.1, p.2))
      else none

/-- Array items: value, then `,` (more items) or `]` (done). -/
def pItems : Nat → List Char → List J → Option (List J × List Char)
  | 0, _, _ => none
  | Nat.succ f, s, acc =>
    match pVal f s with
    | none => none
    | some (v, r) =>
      match skipWs r with
      | ',' :: r2 => pItems f (skipWs r2) (acc ++ [v])
      | ']' :: r2 => some (acc ++ [v], r2)
      | _ => none

/-- Object members: `"key"`, `:`, value, then `,` (more) or `}` (done). -/
def pMembers : Nat → List Char → List (List Char × J) →
    Option (List (List Char × J) × List Char)
  | 0, _, _ => none
  | Nat.succ f, s, acc =>
    match s with
    | '"' :: r =>
      match pStr r with
      | none => none
      | some (k, r1) =>
        match skipWs r1 with
        | ':' :: r3 =>
          match pVal f (skipWs r3) with
          | none => none
          | some (v, r4) =>
            match skipWs r4 with
            | ',' :: r6 => pMembers f (skipWs r6) (objInsert acc k v)
            | c :: r6 =>
              if c = rbrace then some (objInsert acc k v, r6) else none
            | [] => none
        | _ => none
    | _ => none

end

/-- `json.load`: skip leading whitespace, scan one value, require only
whitespace to remain. -/
def jparse (s : String) : Option J :=
  match pVal (s.data.length + 1) (skipWs s.data) with
  | some (v, rest) => if skipWs rest = [] then some v else none
  | none => none

/-- `load_data` (app.py lines 17-25): `none` models a missing
`data/instructions.json`; a parse failure (Python: any exception in the
`try`) degrades to the empty collection `[]`. -/
def load_data (file : Option String) : J :=
  match file with
  | none => .arr []
  | some text =>
    match jparse text with
    | some v => v
    | none => .arr []

/-! ## Round-trip facts: numbers -/

theorem natToCharsAux_lt (n : Nat) (acc : List Char) (h : n < 10) :
    natToCharsAux n acc = Char.ofNat (48 + n) :: acc := by
  rw [natToCharsAux, dif_pos h]

theorem natToCharsAux_ge (n : Nat) (acc : List Char) (h : ¬n < 10) :
    natToCharsAux n acc = natToCharsAux (n / 10) (Char.ofNat (48 + n % 10) :: acc) := by
  conv_lhs => rw [natToCharsAux]
  rw [dif_neg h]

theorem natToCharsAux_eq_append (n : Nat) :
    ∀ acc, natToCharsAux n acc = natToCharsAux n [] ++ acc := by
  induction n using Nat.strong_induction_on with
  | _ n ih =>
    intro acc
    by_cases h : n < 10
    · rw [natToCharsAux_lt n acc h, natToCharsAux_lt n [] h]
      rfl
    · rw [natToCharsAux_ge n acc h, natToCharsAux_ge n [] h]
      have hlt : n / 10 < n := Nat.div_lt_self (by omega) (by omega)
      rw [ih (n / 10) hlt (Char.ofNat (48 + n % 10) :: acc),
        ih (n / 10) hlt [Char.ofNat (48 + n % 10)]]
      simp

theorem digit_char_isDigit (k : Nat) (h : k < 10) :
    (Char.ofNat (48 + k)).isDigit = true := by
  interval_cases k <;> decide

theorem digitVal_digit_char (k : Nat) (h : k < 10) :
    digitVal (Char.ofNat (48 + k)) = k := by
  interval_cases k <;> decide

theorem pDigitsRun_append_chars (n : Nat) :
    ∀ v s, pDigitsRun v (natToChars n ++ s) =
      pDigitsRun (v * 10 ^ (natToChars n).length + n) s := by
  induction n using Nat.strong_induction_on with
  | _ n ih =>
    intro v s
    by_cases h : n < 10
    · have hchars : natToChars n = [Char.ofNat (48 + n)] :=
        natToCharsAux_lt n [] h
      rw [hchars]
      simp only [List.cons_append, List.nil_append, pDigitsRun,
        digit_char_isDigit n h, if_true, List.length_singleton,
        digitVal_digit_char n h, pow_one]
      simp [Nat.mul_comm]
    · have hlt : n / 10 < n := Nat.div_lt_self (by omega) (by omega)
      have hchars : natToChars n =
          natToChars (n / 10) ++ [Char.ofNat (48 + n % 10)] := by
        unfold natToChars
        rw [natToCharsAux_ge n [] h]
        exact natToCharsAux_eq_append (n / 10) [Char.ofNat (48 + n % 10)]
      rw [hchars, List.append_assoc, ih (n / 10) hlt]
      have hm : n % 10 < 10 := Nat.mod_lt _ (by omega)
      simp only [List.cons_append, List.nil_append, pDigitsRun,
        digit_char_isDigit (n % 10) hm, if_true, List.length_append,
        List.length_singleton, digitVal_digit_char (n % 10) hm]
      have harith : 10 * (v * 10 ^ (natToChars (n / 10)).length + n / 10) + n % 10 =
          v * 10 ^ ((natToChars (n / 10)).length + 1) + n := by
        rw [pow_succ]
        have hdm := Nat.div_add_mod n 10
        ring_nf
        omega
      rw [harith]
      simp

theorem natToChars_head (n : Nat) :
    ∃ c cs, natToChars n = c :: cs ∧ c.isDigit = true ∧
      (1 ≤ n → c ≠ '0') := by
  induction n using Nat.strong_induction_on with
  | _ n ih =>
    by_cases h : n < 10
    · have hchars : natToChars n = [Char.ofNat (48 + n)] :=
        natToCharsAux_lt n [] h
      refine ⟨Char.ofNat (48 + n), [], hchars, digit_char_isDigit n h, ?_⟩
      intro h1 he
      interval_cases n <;> simp_all <;> exact absurd he (by decide)
    · have hlt : n / 10 < n := Nat.div_lt_self (by omega) (by omega)
      have hchars : natToChars n =
          natToChars (n / 10) ++ [Char.ofNat (48 + n % 10)] := by
        unfold natToChars
        rw [natToCharsAux_ge n [] h]
        exact natToCharsAux_eq_append (n / 10) [Char.ofNat (48 + n % 10)]
      obtain ⟨c, cs, hc, hdig, hnz⟩ := ih (n / 10) hlt
      refine ⟨c, cs ++ [Char.ofNat (48 + n % 10)], by rw [hchars, hc]; rfl,
        hdig, fun _ => hnz (by omega)⟩

/-- The characters that can follow a printed value inside a dump: a
separator comma, the newline before a closing bracket, or nothing. -/
def headSafe (rest : List Char) : Prop :=
  match rest with
  | [] => True
  | c :: _ => c = ',' ∨ c = '\n'

theorem pDigitsRun_stop (n : Nat) (rest : List Char) (h : headSafe rest) :
    pDigitsRun n rest = (n, rest) := by
  cases rest with
  | nil => rfl
  | cons c r =>
    rcases h with h | h <;> subst h <;> rfl

theorem pNat_natToChars (n : Nat) (rest : List Char) (h : headSafe rest) :
    pNat (natToChars n ++ rest) = some (n, rest) := by
  obtain ⟨c, cs, hc, hdig, hnz⟩ := natToChars_head n
  have hrun : pDigitsRun 0 (natToChars n ++ rest) = (n, rest) := by
    rw [pDigitsRun_append_chars]
    simpa using pDigitsRun_stop n rest h
  by_cases h0 : n = 0
  · subst h0
    have : natToChars 0 = ['0'] := natToCharsAux_lt 0 [] (by omega)
    rw [this]
    rfl
  · have hc0 : c ≠ '0' := hnz (by omega)
    rw [hc, List.cons_append] at hrun ⊢
    have hstep : pDigitsRun 0 (c :: (cs ++ rest)) =
        pDigitsRun (digitVal c) (cs ++ rest) := by
      simp [pDigitsRun, hdig]
    rw [hstep] at hrun
    simp only [pNat, if_neg hc0, hdig, if_true]
    rw [hrun]

theorem pNumTail_stop (v : Int) (rest : List Char) (h : headSafe rest) :
    pNumTail v rest = some (v, rest) := by
  cases rest with
  | nil => rfl
  | cons c r =>
    rcases h with h | h <;> subst h <;> rfl

theorem pNum_intToChars (i : Int) (rest : List Char) (h : headSafe rest) :
    pNum (intToChars i ++ rest) = some (i, rest) := by
  by_cases hneg : i < 0
  · have h1 : intToChars i = '-' :: natToChars i.natAbs := by
      rw [intToChars, if_pos hneg]
    rw [h1, List.cons_append]
    simp only [pNum]
    rw [if_pos trivial, pNat_natToChars i.natAbs rest h]
    show pNumTail (-((i.natAbs : Nat) : Int)) rest = some (i, rest)
    have h2 : -((i.natAbs : Nat) : Int) = i := by omega
    rw [h2, pNumTail_stop i rest h]
  · have h1 : intToChars i = natToChars i.toNat := by
      rw [intToChars, if_neg hneg]
    rw [h1]
    obtain ⟨c, cs, hc, hdig, _⟩ := natToChars_head i.toNat
    have hcm : c ≠ '-' := by
      intro e
      rw [e] at hdig
      exact absurd hdig (by decide)
    rw [hc, List.cons_append]
    simp only [pNum]
    rw [if_neg hcm, ← List.cons_append, ← hc, pNat_natToChars i.toNat rest h]
    show pNumTail ((i.toNat : Nat) : Int) rest = some (i, rest)
    have h2 : ((i.toNat : Nat) : Int) = i := Int.toNat_of_nonneg (by omega)
    rw [h2, pNumTail_stop i rest h]

/-! ## Round-trip facts: strings -/

theorem hexVal_hexDigit (k : Nat) (h : k < 16) : hexVal? (hexDigit k) = some k := by
  interval_cases k <;> decide

theorem pStrF_escape (cs : List Char) :
    ∀ f rest, cs.length + 1 ≤ f →
      pStrF f ((cs.map escapeChar).flatten ++ '"' :: rest) = some (cs, rest) := by
  induction cs with
  | nil =>
    intro f rest hf
    match f, hf with
    | f + 1, _ => rfl
  | cons c cs ih =>
    intro f rest hf
    match f, hf with
    | f + 1, hf =>
    have hf2 : cs.length + 1 ≤ f := by
      simp only [List.length_cons] at hf
      omega
    simp only [List.map_cons, List.flatten_cons, List.append_assoc]
    by_cases h1 : c = '"'
    · subst h1
      show pStrF (f + 1) ('\\' :: '"' :: ((cs.map escapeChar).flatten ++ '"' :: rest)) =
        some ('"' :: cs, rest)
      show (pStrF f ((cs.map escapeChar).flatten ++ '"' :: rest)).map
        (fun p => ('"' :: p.1, p.2)) = some ('"' :: cs, rest)
      rw [ih f rest hf2]
      rfl
    · by_cases h2 : c = '\\'
      · subst h2
        show pStrF (f + 1) ('\\' :: '\\' :: ((cs.map escapeChar).flatten ++ '"' :: rest)) =
          some ('\\' :: cs, rest)
        show (pStrF f ((cs.map escapeChar).flatten ++ '"' :: rest)).map
          (fun p => ('\\' :: p.1, p.2)) = some ('\\' :: cs, rest)
        rw [ih f rest hf2]
        rfl
      · by_cases h3 : c = '\n'
        · subst h3
          show (pStrF f ((cs.map escapeChar).flatten ++ '"' :: rest)).map
            (fun p => ('\n' :: p.1, p.2)) = some ('\n' :: cs, rest)
          rw [ih f rest hf2]
          rfl
        · by_cases h4 : c = '\r'
          · subst h4
            show (pStrF f ((cs.map escapeChar).flatten ++ '"' :: rest)).map
              (fun p => ('\r' :: p.1, p.2)) = some ('\r' :: cs, rest)
            rw [ih f rest hf2]
            rfl
          · by_cases h5 : c = '\t'
            · subst h5
              show (pStrF f ((cs.map escapeChar).flatten ++ '"' :: rest)).map
                (fun p => ('\t' :: p.1, p.2)) = some ('\t' :: cs, rest)
              rw [ih f rest hf2]
              rfl
            · by_cases h6 : c = Char.ofNat 8
              · subst h6
                show (pStrF f ((cs.map escapeChar).flatten ++ '"' :: rest)).map
                  (fun p => (Char.ofNat 8 :: p.1, p.2)) = some (Char.ofNat 8 :: cs, rest)
                rw [ih f rest hf2]
                rfl
              · by_cases h7 : c = Char.ofNat 12
                · subst h7
                  show (pStrF f ((cs.map escapeChar).flatten ++ '"' :: rest)).map
                    (fun p => (Char.ofNat 12 :: p.1, p.2)) =
                    some (Char.ofNat 12 :: cs, rest)
                  rw [ih f rest hf2]
                  rfl
                · by_cases h8 : c.toNat < 32
                  · have hesc : escapeChar c =
                        ['\\', 'u', '0', '0', hexDigit (c.toNat / 16),
                          hexDigit (c.toNat % 16)] := by
                      rw [escapeChar, if_neg h1, if_neg h2, if_neg h3, if_neg h4,
                        if_neg h5, if_neg h6, if_neg h7, if_pos h8]
                    rw [hesc]
                    simp only [List.cons_append, List.nil_append]
                    have hh : hex4 ('0' :: '0' :: hexDigit (c.toNat / 16) ::
                        hexDigit (c.toNat % 16) ::
                        ((cs.map escapeChar).flatten ++ '"' :: rest)) =
                        some (c.toNat, (cs.map escapeChar).flatten ++ '"' :: rest) := by
                      show (match hexVal? (hexDigit (c.toNat / 16)) with
                        | none => none
                        | some c3 =>
                          match hexVal? (hexDigit (c.toNat % 16)) with
                          | none => none
                          | some d2 => some (4096 * 0 + 256 * 0 + 16 * c3 + d2,
                              (cs.map escapeChar).flatten ++ '"' :: rest)) =
                        some (c.toNat, (cs.map escapeChar).flatten ++ '"' :: rest)
                      rw [hexVal_hexDigit (c.toNat / 16) (by omega),
                        hexVal_hexDigit (c.toNat % 16) (by omega)]
                      show some (4096 * 0 + 256 * 0 + 16 * (c.toNat / 16) +
                          c.toNat % 16,
                          (cs.map escapeChar).flatten ++ '"' :: rest) =
                        some (c.toNat, (cs.map escapeChar).flatten ++ '"' :: rest)
                      have harith : 4096 * 0 + 256 * 0 + 16 * (c.toNat / 16) +
                          c.toNat % 16 = c.toNat := by omega
                      rw [harith]
                    have hpe : pEsc ('u' :: '0' :: '0' :: hexDigit (c.toNat / 16) ::
                        hexDigit (c.toNat % 16) ::
                        ((cs.map escapeChar).flatten ++ '"' :: rest)) =
                        some (Char.ofNat c.toNat,
                          (cs.map escapeChar).flatten ++ '"' :: rest) := by
                      show (match hex4 ('0' :: '0' :: hexDigit (c.toNat / 16) ::
                          hexDigit (c.toNat % 16) ::
                          ((cs.map escapeChar).flatten ++ '"' :: rest)) with
                        | none => none
                        | some (u, r3) =>
                          if 55296 ≤ u ∧ u ≤ 56319 then
                            match r3 with
                            | '\\' :: 'u' :: rr =>
                              match hex4 rr with
                              | none => none
                              | some (w, r5) =>
                                if 56320 ≤ w ∧ w ≤ 57343 then
                                  some (Char.ofNat (65536 + 1024 * (u - 55296) +
                                    (w - 56320)), r5)
                                else none
                            | _ => none
                          else if 56320 ≤ u ∧ u ≤ 57343 then none
                          else some (Char.ofNat u, r3)) =
                        some (Char.ofNat c.toNat,
                          (cs.map escapeChar).flatten ++ '"' :: rest)
                      rw [hh]
                      simp only [if_neg (show ¬(55296 ≤ c.toNat ∧ c.toNat ≤ 56319)
                          by omega),
                        if_neg (show ¬(56320 ≤ c.toNat ∧ c.toNat ≤ 57343) by omega)]
                    show (match pEsc ('u' :: '0' :: '0' :: hexDigit (c.toNat / 16) ::
                        hexDigit (c.toNat % 16) ::
                        ((cs.map escapeChar).flatten ++ '"' :: rest)) with
                      | none => none
                      | some (ch, r2) => (pStrF f r2).map (fun p => (ch :: p.1, p.2))) =
                      some (c :: cs, rest)
                    rw [hpe]
                    show (pStrF f ((cs.map escapeChar).flatten ++ '"' :: rest)).map
                      (fun p => (Char.ofNat c.toNat :: p.1, p.2)) = some (c :: cs, rest)
                    rw [ih f rest hf2, Char.ofNat_toNat]
                    rfl
                  · have hesc : escapeChar c = [c] := by
                      rw [escapeChar, if_neg h1, if_neg h2, if_neg h3, if_neg h4,
                        if_neg h5, if_neg h6, if_neg h7, if_neg h8]
                    rw [hesc, List.cons_append, List.nil_append]
                    simp only [pStrF, if_neg h1, if_neg h2, if_neg h8]
                    rw [ih f rest hf2]
                    rfl

/-- Each escaped character occupies at least one output character, so the
escaped text is at least as long as the original. -/
theorem length_le_escaped (cs : List Char) :
    cs.length ≤ ((cs.map escapeChar).flatten).length := by
  induction cs with
  | nil => simp
  | cons c cs ih =>
    simp only [List.map_cons, List.flatten_cons, List.length_append,
      List.length_cons]
    have : 1 ≤ (escapeChar c).length := by
      rw [escapeChar]
      split
      · simp
      · split
        · simp
        · split
          · simp
          · split
            · simp
            · split
              · simp
              · split
                · simp
                · split
                  · simp
                  · split
                    · simp
                    · simp
    omega

/-- String round trip through the wrapper. -/
theorem pStr_escape (cs rest : List Char) :
    pStr ((cs.map escapeChar).flatten ++ '"' :: rest) = some (cs, rest) := by
  unfold pStr
  apply pStrF_escape
  have := length_le_escaped cs
  simp only [List.length_append, List.length_cons]
  omega

/-! ## Whitespace and shape lemmas -/

theorem skipWs_cons_not_ws (c : Char) (r : List Char) (h : isJsonWs c = false) :
    skipWs (c :: r) = c :: r := by
  rw [skipWs, h]
  rfl

theorem skipWs_cons_ws (c : Char) (r : List Char) (h : isJsonWs c = true) :
    skipWs (c :: r) = skipWs r := by
  rw [skipWs, h]
  rfl

theorem skipWs_replicate_space (k : Nat) (s : List Char) :
    skipWs (List.replicate k ' ' ++ s) = skipWs s := by
  induction k with
  | zero => rfl
  | succ k ih =>
    rw [List.replicate_succ, List.cons_append, skipWs_cons_ws ' ' _ (by decide), ih]

theorem skipWs_nl_indent (d : Nat) (s : List Char) :
    skipWs ('\n' :: (indentChars d ++ s)) = skipWs s := by
  rw [skipWs_cons_ws '\n' _ (by decide), indentChars, skipWs_replicate_space]

theorem intToChars_head (i : Int) :
    ∃ c cs, intToChars i = c :: cs ∧ isJsonWs c = false ∧
      (c = '-' ∨ c.isDigit = true) := by
  rw [intToChars]
  split
  · exact ⟨'-', _, rfl, by decide, Or.inl rfl⟩
  · obtain ⟨c, cs, hc, hdig, _⟩ := natToChars_head i.toNat
    refine ⟨c, cs, hc, ?_, Or.inr hdig⟩
    by_contra hw
    simp only [Bool.not_eq_false] at hw
    rw [isJsonWs] at hw
    simp only [decide_eq_true_eq] at hw
    rcases hw with h | h | h | h <;> (subst h; exact absurd hdig (by decide))

theorem dumpV_head (v : J) (d : Nat) :
    ∃ c cs, dumpV v d = c :: cs ∧ isJsonWs c = false ∧ c ≠ ']' := by
  match v with
  | .null => exact ⟨'n', ['u', 'l', 'l'], by rw [dumpV], by decide, by decide⟩
  | .bool true => exact ⟨'t', ['r', 'u', 'e'], by rw [dumpV], by decide, by decide⟩
  | .bool false =>
    exact ⟨'f', ['a', 'l', 's', 'e'], by rw [dumpV], by decide, by decide⟩
  | .int i =>
    obtain ⟨c, cs, hc, hws, hcls⟩ := intToChars_head i
    refine ⟨c, cs, by rw [dumpV, hc], hws, ?_⟩
    rcases hcls with h | h
    · subst h; decide
    · intro e; subst e; exact absurd h (by decide)
  | .str s =>
    exact ⟨'"', (s.map escapeChar).flatten ++ ['"'],
      by rw [dumpV, escapeString, List.cons_append], by decide, by decide⟩
  | .arr [] => exact ⟨'[', [']'], by rw [dumpV], by decide, by decide⟩
  | .arr (x :: xs) =>
    exact ⟨'[', ('\n' :: (indentChars (d + 1) ++ dumpItems x xs (d + 1))) ++
      '\n' :: (indentChars d ++ [']']),
      by rw [dumpV, List.cons_append], by decide, by decide⟩
  | .obj [] => exact ⟨lbrace, [rbrace], by rw [dumpV], by decide, by decide⟩
  | .obj (kv :: kvs) =>
    exact ⟨lbrace, ('\n' :: (indentChars (d + 1) ++ dumpMembers kv kvs (d + 1))) ++
      '\n' :: (indentChars d ++ [rbrace]),
      by rw [dumpV, List.cons_append], by decide, by decide⟩

theorem skipWs_dumpV (v : J) (d : Nat) (s : List Char) :
    skipWs (dumpV v d ++ s) = dumpV v d ++ s := by
  obtain ⟨c, cs, hc, hws, _⟩ := dumpV_head v d
  rw [hc, List.cons_append, skipWs_cons_not_ws c _ hws]

theorem dumpV_length_pos (v : J) (d : Nat) : 1 ≤ (dumpV v d).length := by
  obtain ⟨c, cs, hc, _, _⟩ := dumpV_head v d
  rw [hc]
  simp

theorem objInsert_not_mem (kvs : List (List Char × J)) (k : List Char) (v : J)
    (h : k ∉ kvs.map Prod.fst) : objInsert kvs k v = kvs ++ [(k, v)] := by
  induction kvs with
  | nil => rfl
  | cons kv rest ih =>
    obtain ⟨k1, v1⟩ := kv
    simp only [List.map_cons, List.mem_cons, not_or] at h
    rw [objInsert, if_neg (Ne.symm h.1), ih h.2]
    rfl

/-! ## Well-formed values and fuel accounting -/

mutual

/-- Values in the image of the parser: object keys are distinct at every
level. -/
def WFJ : J → Prop
  | .arr xs => WFL xs
  | .obj kvs => WFM kvs ∧ (kvs.map Prod.fst).Nodup
  | _ => True
termination_by v => sizeOf v

def WFL : List J → Prop
  | [] => True
  | x :: xs => WFJ x ∧ WFL xs
termination_by l => sizeOf l

def WFM : List (List Char × J) → Prop
  | [] => True
  | (_, v) :: kvs => WFJ v ∧ WFM kvs
termination_by l => sizeOf l

end

mutual

/-- Fuel needed by `pVal` on the dump of `v`. -/
def jfuel : J → Nat
  | .arr [] => 1
  | .arr (x :: xs) => 1 + ifuel x xs
  | .obj [] => 1
  | .obj (kv :: kvs) => 1 + mfuel kv kvs
  | _ => 1
termination_by v => sizeOf v

/-- Fuel needed by `pItems`. -/
def ifuel : J → List J → Nat
  | x, [] => 1 + jfuel x
  | x, y :: ys => 1 + max (jfuel x) (ifuel y ys)
termination_by x xs => 1 + sizeOf x + sizeOf xs

/-- Fuel needed by `pMembers`. -/
def mfuel : (List Char × J) → List (List Char × J) → Nat
  | (_, v), [] => 1 + jfuel v
  | (_, v), m :: ms => 1 + max (jfuel v) (mfuel m ms)
termination_by kv kvs => 1 + sizeOf kv + sizeOf kvs

end

theorem jfuel_pos (v : J) : 1 ≤ jfuel v := by
  match v with
  | .arr [] => simp [jfuel]
  | .arr (x :: xs) => simp [jfuel]
  | .obj [] => simp [jfuel]
  | .obj (kv :: kvs) => simp [jfuel]
  | .null => simp [jfuel]
  | .bool b => simp [jfuel]
  | .int i => simp [jfuel]
  | .str s => simp [jfuel]

theorem fuel_le_dump (n : Nat) :
    (∀ v d, jfuel v ≤ n → jfuel v ≤ (dumpV v d).length) ∧
    (∀ x xs d, ifuel x xs ≤ n → ifuel x xs ≤ (dumpItems x xs d).length + 2) ∧
    (∀ kv kvs d, mfuel kv kvs ≤ n →
      mfuel kv kvs ≤ (dumpMembers kv kvs d).length + 2) := by
  induction n using Nat.strong_induction_on with
  | _ n ih =>
    refine ⟨?_, ?_, ?_⟩
    · intro v d hv
      match v with
      | .null => simp [jfuel, dumpV]
      | .bool true => simp [jfuel, dumpV]
      | .bool false => simp [jfuel, dumpV]
      | .int i =>
        obtain ⟨c, cs, hc, _⟩ := intToChars_head i
        simp only [jfuel, dumpV, hc, List.length_cons]
        omega
      | .str s => simp [jfuel, dumpV, escapeString]
      | .arr [] => simp [jfuel, dumpV]
      | .arr (x :: xs) =>
        simp only [jfuel] at hv ⊢
        have hlt : ifuel x xs < n := by omega
        obtain ⟨-, hQ, -⟩ := ih (ifuel x xs) hlt
        have hb := hQ x xs (d + 1) (le_refl _)
        simp only [dumpV, List.length_cons, List.length_append, indentChars,
          List.length_replicate, List.length_singleton]
        omega
      | .obj [] => simp [jfuel, dumpV]
      | .obj (kv :: kvs) =>
        simp only [jfuel] at hv ⊢
        have hlt : mfuel kv kvs < n := by omega
        obtain ⟨-, -, hR⟩ := ih (mfuel kv kvs) hlt
        have hb := hR kv kvs (d + 1) (le_refl _)
        simp only [dumpV, List.length_cons, List.length_append, indentChars,
          List.length_replicate, List.length_singleton]
        omega
    · intro x xs d hx
      match xs with
      | [] =>
        simp only [ifuel] at hx ⊢
        have hlt : jfuel x < n := by omega
        obtain ⟨hP, -, -⟩ := ih (jfuel x) hlt
        have hb := hP x d (le_refl _)
        simp only [dumpItems]
        omega
      | y :: ys =>
        simp only [ifuel] at hx ⊢
        have hmx : jfuel x ≤ max (jfuel x) (ifuel y ys) := Nat.le_max_left _ _
        have hmy : ifuel y ys ≤ max (jfuel x) (ifuel y ys) := Nat.le_max_right _ _
        have hltx : jfuel x < n := by omega
        have hlty : ifuel y ys < n := by omega
        obtain ⟨hP, -, -⟩ := ih (jfuel x) hltx
        obtain ⟨-, hQ, -⟩ := ih (ifuel y ys) hlty
        have hbx := hP x d (le_refl _)
        have hby := hQ y ys d (le_refl _)
        have hpos := dumpV_length_pos x d
        simp only [dumpItems, List.length_append, List.length_cons, indentChars,
          List.length_replicate]
        have hgoal : max (jfuel x) (ifuel y ys) ≤
            (dumpV x d).length + (2 * d + (dumpItems y ys d).length + 2) + 1 :=
          Nat.max_le.mpr ⟨by omega, by omega⟩
        omega
    · intro kv kvs d hkv
      match kv, kvs with
      | (k, v), [] =>
        simp only [mfuel] at hkv ⊢
        have hlt : jfuel v < n := by omega
        obtain ⟨hP, -, -⟩ := ih (jfuel v) hlt
        have hb := hP v d (le_refl _)
        simp only [dumpMembers, List.length_append, List.length_cons]
        omega
      | (k, v), m :: ms =>
        simp only [mfuel] at hkv ⊢
        have hmx : jfuel v ≤ max (jfuel v) (mfuel m ms) := Nat.le_max_left _ _
        have hmy : mfuel m ms ≤ max (jfuel v) (mfuel m ms) := Nat.le_max_right _ _
        have hltx : jfuel v < n := by omega
        have hlty : mfuel m ms < n := by omega
        obtain ⟨hP, -, -⟩ := ih (jfuel v) hltx
        obtain ⟨-, -, hR⟩ := ih (mfuel m ms) hlty
        have hbx := hP v d (le_refl _)
        have hby := hR m ms d (le_refl _)
        simp only [dumpMembers, List.length_append, List.length_cons, indentChars,
          List.length_replicate]
        have hgoal : max (jfuel v) (mfuel m ms) ≤
            (escapeString k).length + (dumpV v d).length +
              (2 * d + (dumpMembers m ms d).length) + 4 :=
          Nat.max_le.mpr ⟨by omega, by omega⟩
        omega

theorem dumpItems_eq (x : J) (xs : List J) (d : Nat) :
    ∃ t, dumpItems x xs d = dumpV x d ++ t := by
  match xs with
  | [] => exact ⟨[], by rw [dumpItems]; simp⟩
  | y :: ys =>
    exact ⟨',' :: '\n' :: (indentChars d ++ dumpItems y ys d), by rw [dumpItems]⟩

theorem skipWs_dumpItems (x : J) (xs : List J) (d : Nat) (s : List Char) :
    skipWs (dumpItems x xs d ++ s) = dumpItems x xs d ++ s := by
  obtain ⟨t, ht⟩ := dumpItems_eq x xs d
  rw [ht, List.append_assoc, skipWs_dumpV, ← List.append_assoc]

theorem dumpMembers_head (kv : List Char × J) (kvs : List (List Char × J))
    (d : Nat) :
    ∃ t, dumpMembers kv kvs d = '"' :: t := by
  obtain ⟨k, v⟩ := kv
  match kvs with
  | [] =>
    refine ⟨(k.map escapeChar).flatten ++ '"' :: (':' :: ' ' :: dumpV v d), ?_⟩
    rw [dumpMembers, escapeString]
    simp
  | m :: ms =>
    refine ⟨(k.map escapeChar).flatten ++ '"' :: (':' :: ' ' :: dumpV v d ++
      ',' :: '\n' :: (indentChars d ++ dumpMembers m ms d)), ?_⟩
    rw [dumpMembers, escapeString]
    simp

theorem skipWs_dumpMembers (kv : List Char × J) (kvs : List (List Char × J))
    (d : Nat) (s : List Char) :
    skipWs (dumpMembers kv kvs d ++ s) = dumpMembers kv kvs d ++ s := by
  obtain ⟨t, ht⟩ := dumpMembers_head kv kvs d
  rw [ht, List.cons_append, skipWs_cons_not_ws '"' _ (by decide)]

theorem ifuel_pos (x : J) (xs : List J) : 1 ≤ ifuel x xs := by
  match xs with
  | [] => rw [ifuel]; omega
  | y :: ys => rw [ifuel]; omega

theorem mfuel_pos (kv : List Char × J) (kvs : List (List Char × J)) :
    1 ≤ mfuel kv kvs := by
  obtain ⟨k, v⟩ := kv
  match kvs with
  | [] => rw [mfuel]; omega
  | m :: ms => rw [mfuel]; omega

theorem parse_dump (f : Nat) :
    (∀ v d rest, WFJ v → jfuel v ≤ f → headSafe rest →
      pVal f (dumpV v d ++ rest) = some (v, rest)) ∧
    (∀ x xs d acc rest, WFL (x :: xs) → ifuel x xs ≤ f →
      pItems f (dumpItems x xs (d + 1) ++
        ('\n' :: (indentChars d ++ ']' :: rest))) acc = some (acc ++ x :: xs, rest)) ∧
    (∀ kv kvs d acc rest, WFM (kv :: kvs) → mfuel kv kvs ≤ f →
      (acc.map Prod.fst ++ (kv :: kvs).map Prod.fst).Nodup →
      pMembers f (dumpMembers kv kvs (d + 1) ++
        ('\n' :: (indentChars d ++ rbrace :: rest))) acc =
        some (acc ++ kv :: kvs, rest)) := by
  induction f using Nat.strong_induction_on with
  | _ f ih =>
    refine ⟨?_, ?_, ?_⟩
    · intro v d rest hwf hfl hrest
      cases f with
      | zero => exact absurd hfl (by have := jfuel_pos v; omega)
      | succ f =>
        match v with
        | .null =>
          rw [show dumpV .null d = ['n', 'u', 'l', 'l'] from by rw [dumpV]]
          rfl
        | .bool true =>
          rw [show dumpV (.bool true) d = ['t', 'r', 'u', 'e'] from by rw [dumpV]]
          rfl
        | .bool false =>
          rw [show dumpV (.bool false) d = ['f', 'a', 'l', 's', 'e'] from by
            rw [dumpV]]
          rfl
        | .int i =>
          rw [show dumpV (.int i) d = intToChars i from by rw [dumpV]]
          obtain ⟨c, cs, hc, hws, hcls⟩ := intToChars_head i
          have hnum : c = '-' ∨ c.isDigit = true := hcls
          have h1 : c ≠ '"' := by
            rcases hcls with h | h
            · subst h; decide
            · intro e; subst e; exact absurd h (by decide)
          have h2 : c ≠ lbrace := by
            rcases hcls with h | h
            · subst h; decide
            · intro e; subst e; exact absurd h (by decide)
          have h3 : c ≠ '[' := by
            rcases hcls with h | h
            · subst h; decide
            · intro e; subst e; exact absurd h (by decide)
          have h4 : c ≠ 'n' := by
            rcases hcls with h | h
            · subst h; decide
            · intro e; subst e; exact absurd h (by decide)
          have h5 : c ≠ 't' := by
            rcases hcls with h | h
            · subst h; decide
            · intro e; subst e; exact absurd h (by decide)
          have h6 : c ≠ 'f' := by
            rcases hcls with h | h
            · subst h; decide
            · intro e; subst e; exact absurd h (by decide)
          rw [hc, List.cons_append]
          simp only [pVal]
          rw [if_neg h1, if_neg h2, if_neg h3, if_neg h4, if_neg h5, if_neg h6,
            if_pos hnum, ← List.cons_append, ← hc, pNum_intToChars i rest hrest]
          rfl
        | .str s =>
          rw [show dumpV (.str s) d =
            ('"' :: (s.map escapeChar).flatten) ++ ['"'] from by
              rw [dumpV, escapeString]]
          rw [List.append_assoc, List.cons_append, List.singleton_append]
          show (pStr ((s.map escapeChar).flatten ++ '"' :: rest)).map
            (fun p => (J.str p.1, p.2)) = some (.str s, rest)
          rw [pStr_escape]
          rfl
        | .arr [] =>
          rw [show dumpV (.arr []) d = ['[', ']'] from by rw [dumpV]]
          rfl
        | .arr (x :: xs) =>
          have hwl : WFL (x :: xs) := by
            have : WFJ (.arr (x :: xs)) = WFL (x :: xs) := by rw [WFJ]
            rw [this] at hwf
            exact hwf
          have hif : ifuel x xs ≤ f := by
            have : jfuel (.arr (x :: xs)) = 1 + ifuel x xs := by rw [jfuel]
            rw [this] at hfl
            omega
          have hin : dumpV (.arr (x :: xs)) d ++ rest =
              '[' :: '\n' :: (indentChars (d + 1) ++
                (dumpItems x xs (d + 1) ++
                  ('\n' :: (indentChars d ++ ']' :: rest)))) := by
            rw [dumpV]
            simp [List.append_assoc]
          rw [hin]
          show (match skipWs ('\n' :: (indentChars (d + 1) ++
              (dumpItems x xs (d + 1) ++
                ('\n' :: (indentChars d ++ ']' :: rest))))) with
            | c2 :: r2 =>
              if c2 = ']' then some (J.arr [], r2)
              else (pItems f (c2 :: r2) []).map (fun p => (J.arr p.1, p.2))
            | [] => none) = some (J.arr (x :: xs), rest)
          rw [skipWs_nl_indent, skipWs_dumpItems]
          obtain ⟨t2, ht2⟩ := dumpItems_eq x xs (d + 1)
          obtain ⟨c, cs2, hc, hws, hnb⟩ := dumpV_head x (d + 1)
          rw [ht2, List.append_assoc, hc, List.cons_append]
          simp only []
          rw [if_neg hnb, ← List.cons_append, ← hc, ← List.append_assoc, ← ht2,
            (ih f (by omega)).2.1 x xs d [] rest hwl hif]
          rfl
        | .obj [] =>
          rw [show dumpV (.obj []) d = [lbrace, rbrace] from by rw [dumpV]]
          rfl
        | .obj (kv :: kvs) =>
          have hwm : WFM (kv :: kvs) ∧ ((kv :: kvs).map Prod.fst).Nodup := by
            have : WFJ (.obj (kv :: kvs)) =
                (WFM (kv :: kvs) ∧ ((kv :: kvs).map Prod.fst).Nodup) := by
              rw [WFJ]
            rw [this] at hwf
            exact hwf
          have hmf : mfuel kv kvs ≤ f := by
            have : jfuel (.obj (kv :: kvs)) = 1 + mfuel kv kvs := by rw [jfuel]
            rw [this] at hfl
            omega
          have hin : dumpV (.obj (kv :: kvs)) d ++ rest =
              lbrace :: '\n' :: (indentChars (d + 1) ++
                (dumpMembers kv kvs (d + 1) ++
                  ('\n' :: (indentChars d ++ rbrace :: rest)))) := by
            rw [dumpV]
            simp [List.append_assoc]
          rw [hin]
          show (match skipWs ('\n' :: (indentChars (d + 1) ++
              (dumpMembers kv kvs (d + 1) ++
                ('\n' :: (indentChars d ++ rbrace :: rest))))) with
            | c2 :: r2 =>
              if c2 = rbrace then some (J.obj [], r2)
              else (pMembers f (c2 :: r2) []).map (fun p => (J.obj p.1, p.2))
            | [] => none) = some (J.obj (kv :: kvs), rest)
          rw [skipWs_nl_indent, skipWs_dumpMembers]
          obtain ⟨t2, ht2⟩ := dumpMembers_head kv kvs (d + 1)
          rw [ht2, List.cons_append]
          simp only []
          rw [if_neg (by decide : ¬('"' : Char) = rbrace), ← List.cons_append,
            ← ht2, (ih f (by omega)).2.2 kv kvs d [] rest hwm.1 hmf
              (by rw [List.map_nil, List.nil_append]; exact hwm.2)]
          rfl
    · intro x xs d acc rest hwl hif
      cases f with
      | zero => exact absurd hif (by have := ifuel_pos x xs; omega)
      | succ f =>
        have hx : WFJ x ∧ WFL xs := by
          have : WFL (x :: xs) = (WFJ x ∧ WFL xs) := by rw [WFL]
          rw [this] at hwl
          exact hwl
        match xs with
        | [] =>
          have hjf : jfuel x ≤ f := by
            have : ifuel x [] = 1 + jfuel x := by rw [ifuel]
            rw [this] at hif
            omega
          have hP := (ih f (by omega)).1 x (d + 1)
            ('\n' :: (indentChars d ++ ']' :: rest)) hx.1 hjf (Or.inr rfl)
          rw [show dumpItems x [] (d + 1) = dumpV x (d + 1) from by rw [dumpItems]]
          show (match pVal f (dumpV x (d + 1) ++
              ('\n' :: (indentChars d ++ ']' :: rest))) with
            | none => none
            | some (v, r) =>
              match skipWs r with
              | ',' :: r2 => pItems f (skipWs r2) (acc ++ [v])
              | ']' :: r2 => some (acc ++ [v], r2)
              | _ => none) = some (acc ++ [x], rest)
          rw [hP]
          simp only []
          rw [skipWs_nl_indent, skipWs_cons_not_ws ']' _ (by decide)]
          rfl
        | y :: ys =>
          have hjf : jfuel x ≤ f := by
            have he : ifuel x (y :: ys) = 1 + max (jfuel x) (ifuel y ys) := by
              rw [ifuel]
            rw [he] at hif
            have := Nat.le_max_left (jfuel x) (ifuel y ys)
            omega
          have hif2 : ifuel y ys ≤ f := by
            have he : ifuel x (y :: ys) = 1 + max (jfuel x) (ifuel y ys) := by
              rw [ifuel]
            rw [he] at hif
            have := Nat.le_max_right (jfuel x) (ifuel y ys)
            omega
          have hin : dumpItems x (y :: ys) (d + 1) ++
              ('\n' :: (indentChars d ++ ']' :: rest)) =
              dumpV x (d + 1) ++ (',' :: '\n' :: (indentChars (d + 1) ++
                (dumpItems y ys (d + 1) ++
                  ('\n' :: (indentChars d ++ ']' :: rest))))) := by
            rw [dumpItems]
            simp [List.append_assoc]
          rw [hin]
          have hP := (ih f (by omega)).1 x (d + 1)
            (',' :: '\n' :: (indentChars (d + 1) ++
              (dumpItems y ys (d + 1) ++
                ('\n' :: (indentChars d ++ ']' :: rest))))) hx.1 hjf (Or.inl rfl)
          show (match pVal f (dumpV x (d + 1) ++
              (',' :: '\n' :: (indentChars (d + 1) ++
                (dumpItems y ys (d + 1) ++
                  ('\n' :: (indentChars d ++ ']' :: rest)))))) with
            | none => none
            | some (v, r) =>
              match skipWs r with
              | ',' :: r2 => pItems f (skipWs r2) (acc ++ [v])
              | ']' :: r2 => some (acc ++ [v], r2)
              | _ => none) = some (acc ++ x :: y :: ys, rest)
          rw [hP]
          simp only []
          rw [skipWs_cons_not_ws ',' _ (by decide)]
          simp only []
          rw [skipWs_nl_indent, skipWs_dumpItems,
            (ih f (by omega)).2.1 y ys d (acc ++ [x]) rest hx.2 hif2]
          simp
    · intro kv kvs d acc rest hwm hmf hnd
      cases f with
      | zero => exact absurd hmf (by have := mfuel_pos kv kvs; omega)
      | succ f =>
        obtain ⟨k, v⟩ := kv
        have hv : WFJ v ∧ WFM kvs := by
          have : WFM ((k, v) :: kvs) = (WFJ v ∧ WFM kvs) := by rw [WFM]
          rw [this] at hwm
          exact hwm
        have hknotin : k ∉ acc.map Prod.fst := by
          obtain ⟨-, -, hdisj⟩ := List.nodup_append.mp hnd
          intro hk
          exact hdisj hk (by rw [List.map_cons]; exact List.mem_cons_self _ _)
        match kvs with
        | [] =>
          have hjf : jfuel v ≤ f := by
            have : mfuel (k, v) [] = 1 + jfuel v := by rw [mfuel]
            rw [this] at hmf
            omega
          have hin : dumpMembers (k, v) [] (d + 1) ++
              ('\n' :: (indentChars d ++ rbrace :: rest)) =
              '"' :: ((k.map escapeChar).flatten ++
                ('"' :: (':' :: (' ' :: (dumpV v (d + 1) ++
                  ('\n' :: (indentChars d ++ rbrace :: rest))))))) := by
            rw [dumpMembers, escapeString]
            simp [List.append_assoc]
          rw [hin]
          show (match pStr ((k.map escapeChar).flatten ++
              ('"' :: (':' :: (' ' :: (dumpV v (d + 1) ++
                ('\n' :: (indentChars d ++ rbrace :: rest))))))) with
            | none => none
            | some (k2, r1) =>
              match skipWs r1 with
              | ':' :: r3 =>
                match pVal f (skipWs r3) with
                | none => none
                | some (v2, r4) =>
                  match skipWs r4 with
                  | ',' :: r6 => pMembers f (skipWs r6) (objInsert acc k2 v2)
                  | c :: r6 =>
                    if c = rbrace then some (objInsert acc k2 v2, r6) else none
                  | [] => none
              | _ => none) = some (acc ++ [(k, v)], rest)
          rw [pStr_escape]
          simp only []
          rw [skipWs_cons_not_ws ':' _ (by decide)]
          simp only []
          rw [skipWs_cons_ws ' ' _ (by decide), skipWs_dumpV,
            (ih f (by omega)).1 v (d + 1)
              ('\n' :: (indentChars d ++ rbrace :: rest)) hv.1 hjf (Or.inr rfl)]
          simp only []
          rw [skipWs_nl_indent,
            skipWs_cons_not_ws rbrace _ (by decide)]
          show (if rbrace = rbrace then some (objInsert acc k v, rest) else none) =
            some (acc ++ [(k, v)], rest)
          rw [if_pos rfl, objInsert_not_mem acc k v hknotin]
        | m :: ms =>
          have hjf : jfuel v ≤ f := by
            have he : mfuel (k, v) (m :: ms) = 1 + max (jfuel v) (mfuel m ms) := by
              rw [mfuel]
            rw [he] at hmf
            have := Nat.le_max_left (jfuel v) (mfuel m ms)
            omega
          have hmf2 : mfuel m ms ≤ f := by
            have he : mfuel (k, v) (m :: ms) = 1 + max (jfuel v) (mfuel m ms) := by
              rw [mfuel]
            rw [he] at hmf
            have := Nat.le_max_right (jfuel v) (mfuel m ms)
            omega
          have hin : dumpMembers (k, v) (m :: ms) (d + 1) ++
              ('\n' :: (indentChars d ++ rbrace :: rest)) =
              '"' :: ((k.map escapeChar).flatten ++
                ('"' :: (':' :: (' ' :: (dumpV v (d + 1) ++
                  (',' :: '\n' :: (indentChars (d + 1) ++
                    (dumpMembers m ms (d + 1) ++
                      ('\n' :: (indentChars d ++ rbrace :: rest)))))))))) := by
            rw [dumpMembers, escapeString]
            simp [List.append_assoc]
          rw [hin]
          show (match pStr ((k.map escapeChar).flatten ++
              ('"' :: (':' :: (' ' :: (dumpV v (d + 1) ++
                (',' :: '\n' :: (indentChars (d + 1) ++
                  (dumpMembers m ms (d + 1) ++
                    ('\n' :: (indentChars d ++ rbrace :: rest)))))))))) with
            | none => none
            | some (k2, r1) =>
              match skipWs r1 with
              | ':' :: r3 =>
                match pVal f (skipWs r3) with
                | none => none
                | some (v2, r4) =>
                  match skipWs r4 with
                  | ',' :: r6 => pMembers f (skipWs r6) (objInsert acc k2 v2)
                  | c :: r6 =>
                    if c = rbrace then some (objInsert acc k2 v2, r6) else none
                  | [] => none
              | _ => none) = some (acc ++ (k, v) :: m :: ms, rest)
          rw [pStr_escape]
          simp only []
          rw [skipWs_cons_not_ws ':' _ (by decide)]
          simp only []
          rw [skipWs_cons_ws ' ' _ (by decide), skipWs_dumpV,
            (ih f (by omega)).1 v (d + 1)
              (',' :: '\n' :: (indentChars (d + 1) ++
                (dumpMembers m ms (d + 1) ++
                  ('\n' :: (indentChars d ++ rbrace :: rest))))) hv.1 hjf
              (Or.inl rfl)]
          simp only []
          rw [skipWs_cons_not_ws ',' _ (by decide)]
          simp only []
          rw [skipWs_nl_indent, skipWs_dumpMembers,
            objInsert_not_mem acc k v hknotin,
            (ih f (by omega)).2.2 m ms d (acc ++ [(k, v)]) rest hv.2 hmf2
              (by simpa [List.append_assoc] using hnd)]
          simp


theorem WFL_nil : WFL [] := by
  rw [WFL]
  trivial

theorem WFM_nil : WFM [] := by
  rw [WFM]
  trivial

theorem WFL_cons_iff (x : J) (xs : List J) : WFL (x :: xs) ↔ WFJ x ∧ WFL xs := by
  rw [WFL]

theorem WFM_cons_iff (k : List Char) (v : J) (kvs : List (List Char × J)) :
    WFM ((k, v) :: kvs) ↔ WFJ v ∧ WFM kvs := by
  rw [WFM]

theorem WFJ_null : WFJ J.null := by
  rw [WFJ]
  exacts [trivial, fun xs h => J.noConfusion h, fun kvs h => J.noConfusion h]

theorem WFJ_bool (b : Bool) : WFJ (J.bool b) := by
  rw [WFJ]
  exacts [trivial, fun xs h => J.noConfusion h, fun kvs h => J.noConfusion h]

theorem WFJ_int (n : Int) : WFJ (J.int n) := by
  rw [WFJ]
  exacts [trivial, fun xs h => J.noConfusion h, fun kvs h => J.noConfusion h]

theorem WFJ_str (s : List Char) : WFJ (J.str s) := by
  rw [WFJ]
  exacts [trivial, fun xs h => J.noConfusion h, fun kvs h => J.noConfusion h]

theorem WFJ_arr_iff (xs : List J) : WFJ (J.arr xs) ↔ WFL xs := by
  rw [WFJ]

theorem WFJ_obj_iff (kvs : List (List Char × J)) :
    WFJ (J.obj kvs) ↔ WFM kvs ∧ (kvs.map Prod.fst).Nodup := by
  rw [WFJ]

theorem WFL_append (l1 l2 : List J) (h1 : WFL l1) (h2 : WFL l2) :
    WFL (l1 ++ l2) := by
  induction l1 with
  | nil => simpa using h2
  | cons x xs ih =>
    rw [WFL_cons_iff] at h1
    rw [List.cons_append, WFL_cons_iff]
    exact ⟨h1.1, ih h1.2⟩

theorem WFM_objInsert (acc : List (List Char × J)) (k : List Char) (v : J)
    (hacc : WFM acc) (hv : WFJ v) : WFM (objInsert acc k v) := by
  induction acc with
  | nil =>
    rw [objInsert, WFM_cons_iff]
    exact ⟨hv, WFM_nil⟩
  | cons kv rest ih =>
    obtain ⟨k1, v1⟩ := kv
    rw [WFM_cons_iff] at hacc
    rw [objInsert]
    by_cases hk : k1 = k
    · rw [if_pos hk, WFM_cons_iff]
      exact ⟨hv, hacc.2⟩
    · rw [if_neg hk, WFM_cons_iff]
      exact ⟨hacc.1, ih hacc.2⟩

theorem objInsert_keys (acc : List (List Char × J)) (k : List Char) (v : J) :
    (objInsert acc k v).map Prod.fst =
      if k ∈ acc.map Prod.fst then acc.map Prod.fst
      else acc.map Prod.fst ++ [k] := by
  induction acc with
  | nil =>
    rw [objInsert]
    simp
  | cons kv rest ih =>
    obtain ⟨k1, v1⟩ := kv
    rw [objInsert]
    by_cases hk : k1 = k
    · subst hk
      rw [if_pos rfl, List.map_cons, List.map_cons,
        if_pos (List.mem_cons_self _ _)]
    · rw [if_neg hk]
      simp only [List.map_cons, List.mem_cons]
      rw [ih]
      by_cases hmem : k ∈ rest.map Prod.fst
      · rw [if_pos hmem, if_pos (Or.inr hmem)]
      · rw [if_neg hmem, if_neg (by
          rintro (h | h)
          · exact hk h.symm
          · exact hmem h)]
        rw [List.cons_append]

theorem objInsert_keys_nodup (acc : List (List Char × J)) (k : List Char) (v : J)
    (h : (acc.map Prod.fst).Nodup) : ((objInsert acc k v).map Prod.fst).Nodup := by
  rw [objInsert_keys]
  by_cases hmem : k ∈ acc.map Prod.fst
  · rw [if_pos hmem]
    exact h
  · rw [if_neg hmem]
    rw [List.nodup_append]
    exact ⟨h, List.nodup_singleton k, by
      intro a ha hb
      rw [List.mem_singleton] at hb
      exact hmem (hb ▸ ha)⟩

theorem parse_wf (f : Nat) :
    (∀ s v r, pVal f s = some (v, r) → WFJ v) ∧
    (∀ s acc l r, pItems f s acc = some (l, r) → WFL acc → WFL l) ∧
    (∀ s acc l r, pMembers f s acc = some (l, r) →
      WFM acc → (acc.map Prod.fst).Nodup →
      WFM l ∧ (l.map Prod.fst).Nodup) := by
  induction f using Nat.strong_induction_on with
  | _ f ih =>
    refine ⟨?_, ?_, ?_⟩
    · intro s v r h
      cases f with
      | zero => exact absurd h (by rw [pVal]; simp)
      | succ f =>
        match s with
        | [] => exact absurd h (by rw [pVal]; simp)
        | c :: cr =>
          simp only [pVal] at h
          split at h
          · rcases Option.map_eq_some'.mp h with ⟨p, _, hp⟩
            simp only [Prod.mk.injEq] at hp
            rw [← hp.1]
            exact WFJ_str p.1
          · split at h
            · split at h
              · split at h
                · simp only [Option.some.injEq, Prod.mk.injEq] at h
                  rw [← h.1, WFJ_obj_iff]
                  exact ⟨WFM_nil, List.nodup_nil⟩
                · rcases Option.map_eq_some'.mp h with ⟨p, hp1, hp2⟩
                  simp only [Prod.mk.injEq] at hp2
                  rw [← hp2.1, WFJ_obj_iff]
                  exact (ih f (by omega)).2.2 _ _ _ _ hp1 WFM_nil (by simp)
              · exact absurd h (by simp)
            · split at h
              · split at h
                · split at h
                  · simp only [Option.some.injEq, Prod.mk.injEq] at h
                    rw [← h.1, WFJ_arr_iff]
                    exact WFL_nil
                  · rcases Option.map_eq_some'.mp h with ⟨p, hp1, hp2⟩
                    simp only [Prod.mk.injEq] at hp2
                    rw [← hp2.1, WFJ_arr_iff]
                    exact (ih f (by omega)).2.1 _ _ _ _ hp1 WFL_nil
                · exact absurd h (by simp)
              · split at h
                · split at h
                  · simp only [Option.some.injEq, Prod.mk.injEq] at h
                    rw [← h.1]
                    exact WFJ_null
                  · exact absurd h (by simp)
                · split at h
                  · split at h
                    · simp only [Option.some.injEq, Prod.mk.injEq] at h
                      rw [← h.1]
                      exact WFJ_bool true
                    · exact absurd h (by simp)
                  · split at h
                    · split at h
                      · simp only [Option.some.injEq, Prod.mk.injEq] at h
                        rw [← h.1]
                        exact WFJ_bool false
                      · exact absurd h (by simp)
                    · split at h
                      · rcases Option.map_eq_some'.mp h with ⟨p, _, hp2⟩
                        simp only [Prod.mk.injEq] at hp2
                        rw [← hp2.1]
                        exact WFJ_int p.1
                      · exact absurd h (by simp)
    · intro s acc l r h hacc
      cases f with
      | zero => exact absurd h (by rw [pItems]; simp)
      | succ f =>
        simp only [pItems] at h
        split at h
        · exact absurd h (by simp)
        · rename_i v r1 hp
          have hv : WFJ v := (ih f (by omega)).1 _ _ _ hp
          have haccv : WFL (acc ++ [v]) :=
            WFL_append acc [v] hacc ((WFL_cons_iff v []).mpr ⟨hv, WFL_nil⟩)
          split at h
          · exact (ih f (by omega)).2.1 _ _ _ _ h haccv
          · simp only [Option.some.injEq, Prod.mk.injEq] at h
            rw [← h.1]
            exact haccv
          · exact absurd h (by simp)
    · intro s acc l r h hacc hnd
      cases f with
      | zero => exact absurd h (by rw [pMembers]; simp)
      | succ f =>
        simp only [pMembers] at h
        split at h
        · split at h
          · exact absurd h (by simp)
          · rename_i k r1 hpk
            split at h
            · split at h
              · exact absurd h (by simp)
              · rename_i v r4 hpv
                have hv : WFJ v := (ih f (by omega)).1 _ _ _ hpv
                have hins : WFM (objInsert acc k v) :=
                  WFM_objInsert acc k v hacc hv
                have hinsnd : ((objInsert acc k v).map Prod.fst).Nodup :=
                  objInsert_keys_nodup acc k v hnd
                split at h
                · exact (ih f (by omega)).2.2 _ _ _ _ h hins hinsnd
                · split at h
                  · simp only [Option.some.injEq, Prod.mk.injEq] at h
                    rw [← h.1]
                    exact ⟨hins, hinsnd⟩
                  · exact absurd h (by simp)
                · exact absurd h (by simp)
            · exact absurd h (by simp)
        · exact absurd h (by simp)

theorem load_data_eq (text : String) :
    load_data (some text) =
      match jparse text with
      | some v => v
      | none => J.arr [] := rfl

theorem jparse_wf (text : String) (v : J) (h : jparse text = some v) :
    WFJ v := by
  rw [jparse] at h
  split at h
  · rename_i w rest heq
    split at h
    · have hw := (parse_wf (text.data.length + 1)).1 _ _ _ heq
      exact Option.some.inj h ▸ hw
    · exact absurd h (by simp)
  · exact absurd h (by simp)

theorem load_data_wf (file : Option String) : WFJ (load_data file) := by
  match file with
  | none => exact (WFJ_arr_iff []).mpr WFL_nil
  | some text =>
    rw [load_data_eq]
    cases hj : jparse text with
    | none => exact (WFJ_arr_iff []).mpr WFL_nil
    | some v => exact jparse_wf text v hj

theorem jparse_save_data (v : J) (hwf : WFJ v) :
    jparse (save_data v) = some v := by
  have hdata : (save_data v).data = dumpV v 0 := rfl
  have hfuel : jfuel v ≤ (dumpV v 0).length + 1 := by
    have h1 := (fuel_le_dump (jfuel v)).1 v 0 (le_refl _)
    omega
  have hp := (parse_dump ((dumpV v 0).length + 1)).1 v 0 [] hwf hfuel trivial
  rw [List.append_nil] at hp
  have hsw : skipWs (dumpV v 0) = dumpV v 0 := by
    simpa using skipWs_dumpV v 0 []
  rw [jparse, hdata, hsw, hp]
  rfl

/-- C8: `load_data` (app.py lines 17-25) never fails: a missing
`data/instructions.json` yields the empty collection `[]`, malformed
content (any parse failure inside the `try`) also yields `[]`, and a
successful parse returns the deserialized collection. -/
theorem c8_load_error_handling (file : Option String) :
    (file = none → load_data file = J.arr []) ∧
    (∀ text, file = some text → jparse text = none →
      load_data file = J.arr []) ∧
    (∀ text v, file = some text → jparse text = some v →
      load_data file = v) := by
  refine ⟨?_, ?_, ?_⟩
  · intro h
    rw [h]
    rfl
  · intro text h hj
    rw [h, load_data_eq, hj]
  · intro text v h hj
    rw [h, load_data_eq, hj]

theorem c8_load_error_handling_witness :
    load_data none = J.arr [] ∧
    load_data (some (String.mk ['x'])) = J.arr [] ∧
    load_data (some (String.mk ['[', ']'])) = J.arr [] := by
  refine ⟨(c8_load_error_handling none).1 rfl, ?_, ?_⟩
  · exact (c8_load_error_handling _).2.1 (String.mk ['x']) rfl rfl
  · exact (c8_load_error_handling _).2.2 (String.mk ['[', ']'])
      (J.arr []) rfl rfl

/-- C9: serialization after one load/save round trip is a fixed point:
for every persisted file content (including a missing file and malformed
text), `save_data (load_data (save_data (load_data file)))` is
byte-identical to `save_data (load_data file)`. -/
theorem c9_save_load_roundtrip_idempotent (file : Option String) :
    save_data (load_data (some (save_data (load_data file)))) =
      save_data (load_data file) := by
  have h := jparse_save_data (load_data file) (load_data_wf file)
  rw [load_data_eq, h]
